import Mathlib

/-!
Shallow embedding of the ledger core of `src/app.py` (class `ExpenseSplitter`;
`src/Splitwise clone/splitwise clone.py` contains an earlier subset of the same
methods).  Money is modelled by `ℚ`.  Python dicts are modelled by association
lists that keep insertion order; the registry `self.members` (a Python set) is
modelled by a `List String` in iteration order, with `Nodup` as the set
invariant where a theorem needs it.  `uuid.uuid4()` and `datetime.now()` are
modelled as explicit arguments, and a Python exception escaping an operation is
modelled by an `Option`-valued result (`none` = the call raises).
-/

namespace ExpenseSplit

/-- A Python dict with string keys: an association list whose keys are unique
and kept in insertion order. -/
abbrev Dict (α : Type) : Type := List (String × α)

/-- The key list of a dict, in iteration order. -/
def keyList {α : Type} (d : Dict α) : List String := d.map Prod.fst

/-- Python `d[k]` on a numeric dict: value of the first entry with key `k`,
defaulting to `0` when the key is absent (the source only indexes keys it has
checked for membership). -/
def getVal : Dict ℚ → String → ℚ
  | [], _ => 0
  | kv :: rest, k => if kv.1 = k then kv.2 else getVal rest k

/-- Python `sum(d.values())`. -/
def sumValues (d : Dict ℚ) : ℚ := (d.map Prod.snd).sum

/-- Sum of all entries of `d` stored under key `k`: equal to the dict value
when keys are unique and to `0` when `k` is absent. -/
def entrySum : Dict ℚ → String → ℚ
  | [], _ => 0
  | kv :: rest, k => (if kv.1 = k then kv.2 else 0) + entrySum rest k

/-- Python `d[k] = v`: overwrite the entry in place when the key exists,
append a new entry otherwise. -/
def setVal : Dict ℚ → String → ℚ → Dict ℚ
  | [], k, v => [(k, v)]
  | kv :: rest, k, v => if kv.1 = k then (k, v) :: rest else kv :: setVal rest k v

/-- Python `if k in d: d[k] += delta`: add to the entry holding key `k`,
leave the dict unchanged when the key is absent. -/
def addVal : Dict ℚ → String → ℚ → Dict ℚ
  | [], _, _ => []
  | kv :: rest, k, dl => if kv.1 = k then (kv.1, kv.2 + dl) :: rest else kv :: addVal rest k dl

/-- Python dict comprehension `{k: f k for k in ks}` (duplicate occurrences of
a key collapse onto one entry). -/
def dictComp (ks : List String) (f : String → ℚ) : Dict ℚ :=
  ks.foldl (fun d k => setVal d k (f k)) []

/-- The expense record built by `ExpenseSplitter.add_expense` (a Python dict
with fixed fields). -/
structure Expense where
  id : String
  description : String
  amount : ℚ
  paid_by : List String
  paid_amounts : Dict ℚ
  split_among : List String
  splits : Dict ℚ
  date : String
  group : String
deriving DecidableEq

/-- The in-memory state owned by `ExpenseSplitter`: the Expense Store,
the Groups mapping and the Member Registry (a Python set, modelled as a
duplicate-free list in iteration order). -/
structure ExpenseSplitter where
  expenses : List Expense
  groups : List (String × List String)
  members : List String
deriving DecidableEq

/-- The split-computation block of `ExpenseSplitter.add_expense`
(src/app.py lines 66-78).  `none` models the `ZeroDivisionError` raised by
`amount / len(split_among)` when `split_among` is empty, and by
`ratio_splits[member] / total_ratio` when the ratio weights sum to 0 and at
least one member is included.  Python truthiness of the optional dicts
(`and custom_splits`) is `Option.getD` followed by a non-emptiness test. -/
def computeSplits (amount : ℚ) (split_among : List String) (split_type : String)
    (custom_splits : Option (Dict ℚ)) (ratio_splits : Option (Dict ℚ)) :
    Option (Dict ℚ) :=
  if split_type = "equal" then
    if split_among.length = 0 then none
    else some (dictComp split_among (fun _ => amount / (split_among.length : ℚ)))
  else if split_type = "custom" ∧ (custom_splits.getD []) ≠ [] then
    some (custom_splits.getD [])
  else if split_type = "ratio" ∧ (ratio_splits.getD []) ≠ [] then
    let r := ratio_splits.getD []
    let total := sumValues r
    let included := split_among.filter (fun m => m ∈ keyList r)
    if total = 0 ∧ included ≠ [] then none
    else some (dictComp included (fun m => getVal r m / total * amount))
  else
    some (dictComp split_among (fun _ => 0))

/-- `ExpenseSplitter.add_expense` (src/app.py lines 59-95).  The generated
`uuid` and the creation timestamp are passed in as `expense_id` and `date`.
On success the new expense is appended to the store and the expense id is
returned. -/
def add_expense (sp : ExpenseSplitter) (expense_id : String) (description : String)
    (amount : ℚ) (paid_by : List String) (paid_amounts : Dict ℚ)
    (split_among : List String) (split_type : String)
    (custom_splits : Option (Dict ℚ)) (ratio_splits : Option (Dict ℚ))
    (date : String) (group : String) : Option (ExpenseSplitter × String) :=
  match computeSplits amount split_among split_type custom_splits ratio_splits with
  | none => none
  | some splits =>
    let e : Expense :=
      { id := expense_id, description := description, amount := amount,
        paid_by := paid_by, paid_amounts := paid_amounts,
        split_among := split_among, splits := splits, date := date, group := group }
    some ({ sp with expenses := sp.expenses ++ [e] }, expense_id)

/-- `ExpenseSplitter.delete_expense` (src/app.py lines 97-101). -/
def delete_expense (sp : ExpenseSplitter) (expense_id : String) : ExpenseSplitter :=
  { sp with expenses := sp.expenses.filter (fun e => e.id ≠ expense_id) }

/-- The expense list in scope for a balance query (src/app.py lines 126-128):
Python `if group_filter and group_filter != "All Groups"`, where `None` and the
empty string are falsy. -/
def inScope (expenses : List Expense) (group_filter : Option String) : List Expense :=
  match group_filter with
  | none => expenses
  | some g =>
    if g ≠ "" ∧ g ≠ "All Groups" then expenses.filter (fun e => e.group = g)
    else expenses

/-- The body of the per-expense loop of `calculate_balances`
(src/app.py lines 135-144): add each `paid_amounts` entry to the payer's
balance, then subtract each `splits` entry from the member's balance, touching
only members already present in the balance dict. -/
def processExpense (balances : Dict ℚ) (e : Expense) : Dict ℚ :=
  let b := e.paid_amounts.foldl (fun b kv => addVal b kv.1 kv.2) balances
  e.splits.foldl (fun b kv => addVal b kv.1 (-kv.2)) b

/-- `ExpenseSplitter.calculate_balances` (src/app.py lines 121-146):
initialise every registry member to 0, then process every in-scope expense. -/
def calculate_balances (sp : ExpenseSplitter) (group_filter : Option String) : Dict ℚ :=
  (inScope sp.expenses group_filter).foldl processExpense
    (sp.members.map (fun m => (m, (0 : ℚ))))

/-- A settlement instruction `{'from': ..., 'to': ..., 'amount': ...}`. -/
structure Settlement where
  from_ : String
  to_ : String
  amount : ℚ
deriving DecidableEq

/-- The inner creditor loop of `get_settlements` (src/app.py lines 162-176) for
one debtor: returns the settlements emitted, the debtor's remaining debt, and
the updated creditor dict.  The loop breaks as soon as the remaining debt drops
to ≤ 0.01 and skips creditors whose remaining credit is ≤ 0.01. -/
def settleOne (debtor : String) : ℚ → Dict ℚ → List Settlement × ℚ × Dict ℚ
  | remaining, [] => ([], remaining, [])
  | remaining, (c, credit) :: rest =>
    if remaining ≤ 1/100 then ([], remaining, (c, credit) :: rest)
    else if 1/100 < credit then
      let pay := min remaining credit
      let res := settleOne debtor (remaining - pay) rest
      (⟨debtor, c, pay⟩ :: res.1, res.2.1, (c, credit - pay) :: res.2.2)
    else
      let res := settleOne debtor remaining rest
      (res.1, res.2.1, (c, credit) :: res.2.2)

/-- The outer debtor loop of `get_settlements` (src/app.py lines 159-176),
threading the mutable creditor dict; it also records each debtor's final
remaining debt (the loop variable `remaining_debt` at loop exit). -/
def settleAll : List (String × ℚ) → Dict ℚ → List Settlement × Dict ℚ × Dict ℚ
  | [], creditors => ([], [], creditors)
  | (d, debt) :: rest, creditors =>
    let r1 := settleOne d debt creditors
    let r2 := settleAll rest r1.2.2
    (r1.1 ++ r2.1, (d, r1.2.1) :: r2.2.1, r2.2.2)

/-- The creditor dict of `get_settlements` (src/app.py line 153):
balances strictly above 0.01. -/
def creditorsOf (balances : Dict ℚ) : Dict ℚ :=
  balances.filter (fun kv => 1/100 < kv.2)

/-- The balances strictly below -0.01 (the debtor side of
src/app.py line 154, before taking absolute values). -/
def negativesOf (balances : Dict ℚ) : Dict ℚ :=
  balances.filter (fun kv => kv.2 < -(1/100))

/-- The debtor dict of `get_settlements` (src/app.py line 154):
balances strictly below -0.01, by absolute value. -/
def debtorsOf (balances : Dict ℚ) : Dict ℚ :=
  (negativesOf balances).map (fun kv => (kv.1, |kv.2|))

/-- The entries the settlement planner leaves on neither side (within the
0.01 tolerance); used only in the analysis. -/
def smallsOf (balances : Dict ℚ) : Dict ℚ :=
  balances.filter (fun kv => ¬ 1/100 < kv.2 ∧ ¬ kv.2 < -(1/100))

/-- The settlement plan computed from a balance dict
(src/app.py lines 152-178): creditors are the balances > 0.01, debtors the
balances < -0.01 taken in absolute value, then the greedy double loop. -/
def settlementsOf (balances : Dict ℚ) : List Settlement :=
  (settleAll (debtorsOf balances) (creditorsOf balances)).1

/-- `ExpenseSplitter.get_settlements` (src/app.py lines 148-178). -/
def get_settlements (sp : ExpenseSplitter) (group_filter : Option String) : List Settlement :=
  settlementsOf (calculate_balances sp group_filter)

/-- `ExpenseSplitter.add_group` (src/app.py lines 180-187). -/
def add_group (sp : ExpenseSplitter) (group_name : String) (ms : List String) :
    ExpenseSplitter × Bool :=
  if group_name ∈ keyList sp.groups then (sp, false)
  else ({ sp with groups := sp.groups ++ [(group_name, ms)] }, true)

/-- The snapshot exchanged by `export_data`/`import_data`
(src/app.py lines 193-230).  The JSON text codec (`json.dumps`/`json.loads`)
is treated as a faithful structural transport; the optional fields model the
key-presence checks `'expenses' in data and 'members' in data` performed by
`import_data` on the parsed dict. -/
structure Snapshot where
  expenses : Option (List Expense)
  groups : Option (List (String × List String))
  members : Option (List String)
  export_date : Option String
deriving DecidableEq

/-- `ExpenseSplitter.export_data` (src/app.py lines 193-201); the timestamp is
passed in. -/
def export_data (sp : ExpenseSplitter) (date : String) : Snapshot :=
  { expenses := some sp.expenses, groups := some sp.groups,
    members := some sp.members, export_date := some date }

/-- `ExpenseSplitter.import_data` (src/app.py lines 203-230): require the
`expenses` and `members` keys, read the rest with defaults (`data.get`), and
rebuild the member set (`set(...)`, modelled as `dedup`).  Returns the new
state and `True`, or the unchanged state and `False`. -/
def import_data (sp : ExpenseSplitter) (d : Snapshot) : ExpenseSplitter × Bool :=
  if d.expenses.isSome ∧ d.members.isSome then
    ({ expenses := d.expenses.getD [], groups := d.groups.getD [],
       members := (d.members.getD []).dedup }, true)
  else (sp, false)

/-- Total amount paid by the settlements' `from` side for member `m`
(formalising "each debtor pays each listed creditor the listed amount"). -/
def paidBy : List Settlement → String → ℚ
  | [], _ => 0
  | s :: rest, m => (if s.from_ = m then s.amount else 0) + paidBy rest m

/-- Total amount received through the settlements' `to` side for member `m`. -/
def recvBy : List Settlement → String → ℚ
  | [], _ => 0
  | s :: rest, m => (if s.to_ = m then s.amount else 0) + recvBy rest m

/-- The balance of `m` after every listed payment is carried out: a debtor's
balance rises by what it pays, a creditor's balance falls by what it
receives. -/
def settledBalance (balances : Dict ℚ) (ss : List Settlement) (m : String) : ℚ :=
  getVal balances m + paidBy ss m - recvBy ss m

/-- Net contribution of one expense to member `m`'s balance: paid entries
minus owed entries. -/
def netContribution (e : Expense) (m : String) : ℚ :=
  entrySum e.paid_amounts m - entrySum e.splits m

/-- The net total of member `m` over the expenses in scope, the value
`calculate_balances` is specified to report. -/
def netOf (sp : ExpenseSplitter) (f : Option String) (m : String) : ℚ :=
  ((inScope sp.expenses f).map (fun e => netContribution e m)).sum

/-! ### Generic association-list lemmas -/

theorem keyList_cons {α : Type} (kv : String × α) (d : Dict α) :
    keyList (kv :: d) = kv.1 :: keyList d := rfl

theorem keyList_append {α : Type} (d₁ d₂ : Dict α) :
    keyList (d₁ ++ d₂) = keyList d₁ ++ keyList d₂ := by
  simp [keyList]

theorem getVal_eq_zero_of_not_mem {d : Dict ℚ} {k : String} (h : k ∉ keyList d) :
    getVal d k = 0 := by
  induction d with
  | nil => rfl
  | cons kv rest ih =>
    rw [keyList_cons] at h
    simp only [List.mem_cons, not_or] at h
    rw [getVal, if_neg (fun hk => h.1 hk.symm)]
    exact ih h.2

theorem getVal_eq_of_mem {d : Dict ℚ} {k : String} {v : ℚ}
    (hnd : (keyList d).Nodup) (h : (k, v) ∈ d) : getVal d k = v := by
  induction d with
  | nil => cases h
  | cons kv rest ih =>
    rw [keyList_cons, List.nodup_cons] at hnd
    rcases List.mem_cons.1 h with h | h
    · rw [← h, getVal, if_pos rfl]
    · have hk : kv.1 ≠ k := by
        intro hk
        exact hnd.1 (hk ▸ (List.mem_map.2 ⟨(k, v), h, rfl⟩))
      rw [getVal, if_neg hk]
      exact ih hnd.2 h

theorem entrySum_eq_zero_of_not_mem {d : Dict ℚ} {k : String} (h : k ∉ keyList d) :
    entrySum d k = 0 := by
  induction d with
  | nil => rfl
  | cons kv rest ih =>
    rw [keyList_cons] at h
    simp only [List.mem_cons, not_or] at h
    rw [entrySum, if_neg (fun hk => h.1 hk.symm), ih h.2, add_zero]

theorem entrySum_eq_of_mem {d : Dict ℚ} {k : String} {v : ℚ}
    (hnd : (keyList d).Nodup) (h : (k, v) ∈ d) : entrySum d k = v := by
  induction d with
  | nil => cases h
  | cons kv rest ih =>
    rw [keyList_cons, List.nodup_cons] at hnd
    rcases List.mem_cons.1 h with h | h
    · rw [← h, entrySum, if_pos rfl]
      rw [← h] at hnd
      rw [entrySum_eq_zero_of_not_mem hnd.1, add_zero]
    · have hk : kv.1 ≠ k := by
        intro hk
        exact hnd.1 (hk ▸ (List.mem_map.2 ⟨(k, v), h, rfl⟩))
      rw [entrySum, if_neg hk, ih hnd.2 h, zero_add]

theorem entrySum_nonneg {d : Dict ℚ} (h : ∀ kv ∈ d, 0 ≤ kv.2) (k : String) :
    0 ≤ entrySum d k := by
  induction d with
  | nil => exact le_refl 0
  | cons kv rest ih =>
    rw [entrySum]
    have h1 : 0 ≤ kv.2 := h kv (List.mem_cons_self kv rest)
    have h2 := ih (fun x hx => h x (List.mem_cons_of_mem kv hx))
    by_cases hk : kv.1 = k
    · rw [if_pos hk]; linarith
    · rw [if_neg hk]; linarith

theorem sumValues_nil : sumValues ([] : Dict ℚ) = 0 := rfl

theorem sumValues_cons (kv : String × ℚ) (d : Dict ℚ) :
    sumValues (kv :: d) = kv.2 + sumValues d := by
  simp [sumValues]

theorem sumValues_append (d₁ d₂ : Dict ℚ) :
    sumValues (d₁ ++ d₂) = sumValues d₁ + sumValues d₂ := by
  simp [sumValues]

theorem entrySum_le_sumValues {d : Dict ℚ} (h : ∀ kv ∈ d, 0 ≤ kv.2) (k : String) :
    entrySum d k ≤ sumValues d := by
  induction d with
  | nil => exact le_refl 0
  | cons kv rest ih =>
    rw [entrySum, sumValues_cons]
    have h1 : 0 ≤ kv.2 := h kv (List.mem_cons_self kv rest)
    have h2 := ih (fun x hx => h x (List.mem_cons_of_mem kv hx))
    by_cases hk : kv.1 = k
    · rw [if_pos hk]; linarith
    · rw [if_neg hk]; linarith

theorem sumValues_nonneg {d : Dict ℚ} (h : ∀ kv ∈ d, 0 ≤ kv.2) : 0 ≤ sumValues d := by
  induction d with
  | nil => exact le_refl 0
  | cons kv rest ih =>
    rw [sumValues_cons]
    have h1 : 0 ≤ kv.2 := h kv (List.mem_cons_self kv rest)
    have h2 := ih (fun x hx => h x (List.mem_cons_of_mem kv hx))
    linarith

theorem sumValues_le_of_all_le {d : Dict ℚ} {c : ℚ} (h : ∀ kv ∈ d, kv.2 ≤ c) :
    sumValues d ≤ c * d.length := by
  induction d with
  | nil => simp [sumValues_nil]
  | cons kv rest ih =>
    rw [sumValues_cons]
    have h1 : kv.2 ≤ c := h kv (List.mem_cons_self kv rest)
    have h2 := ih (fun x hx => h x (List.mem_cons_of_mem kv hx))
    simp only [List.length_cons]
    push_cast
    linarith

theorem le_sumValues_of_all_le {d : Dict ℚ} {c : ℚ} (h : ∀ kv ∈ d, c ≤ kv.2) :
    c * d.length ≤ sumValues d := by
  induction d with
  | nil => simp [sumValues_nil]
  | cons kv rest ih =>
    rw [sumValues_cons]
    have h1 : c ≤ kv.2 := h kv (List.mem_cons_self kv rest)
    have h2 := ih (fun x hx => h x (List.mem_cons_of_mem kv hx))
    simp only [List.length_cons]
    push_cast
    linarith

theorem entrySum_le_of_all_le {d : Dict ℚ} {c : ℚ} (hc : 0 ≤ c)
    (hnd : (keyList d).Nodup) (h : ∀ kv ∈ d, kv.2 ≤ c) (k : String) :
    entrySum d k ≤ c := by
  by_cases hk : k ∈ keyList d
  · obtain ⟨kv, hkv, hfst⟩ := List.mem_map.1 hk
    have : entrySum d k = kv.2 := by
      have : (k, kv.2) ∈ d := by
        have : kv = (k, kv.2) := by
          cases kv; simp at hfst; simp [hfst]
        exact this ▸ hkv
      exact entrySum_eq_of_mem hnd this
    rw [this]
    exact h kv hkv
  · rw [entrySum_eq_zero_of_not_mem hk]
    exact hc

theorem getVal_map_self (l : List String) (h : String → ℚ) (k : String) :
    getVal (l.map (fun m => (m, h m))) k = if k ∈ l then h k else 0 := by
  induction l with
  | nil => simp [getVal]
  | cons m rest ih =>
    by_cases hm : m = k
    · subst hm
      simp [getVal]
    · rw [List.map_cons, getVal, if_neg hm, ih]
      by_cases hk : k ∈ rest
      · rw [if_pos hk, if_pos (List.mem_cons_of_mem m hk)]
      · have hk2 : k ∉ m :: rest := by
          intro hc
          rcases List.mem_cons.1 hc with h | h
          · exact hm h.symm
          · exact hk h
        rw [if_neg hk, if_neg hk2]

/-! ### Closed form of `calculate_balances` -/

/-- Entry sum with a value transform, describing the effect of folding
`addVal` over an entry list. -/
def entrySumBy (g : ℚ → ℚ) : Dict ℚ → String → ℚ
  | [], _ => 0
  | kv :: rest, k => (if kv.1 = k then g kv.2 else 0) + entrySumBy g rest k

theorem entrySumBy_id (d : Dict ℚ) (k : String) :
    entrySumBy (fun v => v) d k = entrySum d k := by
  induction d with
  | nil => rfl
  | cons kv rest ih => rw [entrySumBy, entrySum, ih]

theorem entrySumBy_neg (d : Dict ℚ) (k : String) :
    entrySumBy (fun v => -v) d k = -(entrySum d k) := by
  induction d with
  | nil => simp [entrySumBy, entrySum]
  | cons kv rest ih =>
    rw [entrySumBy, entrySum, ih]
    by_cases hk : kv.1 = k
    · rw [if_pos hk, if_pos hk]; ring
    · rw [if_neg hk, if_neg hk]; ring

theorem keyList_addVal (b : Dict ℚ) (k : String) (dl : ℚ) :
    keyList (addVal b k dl) = keyList b := by
  induction b with
  | nil => rfl
  | cons kv rest ih =>
    by_cases hk : kv.1 = k
    · rw [addVal, if_pos hk, keyList_cons, keyList_cons]
    · rw [addVal, if_neg hk, keyList_cons, keyList_cons, ih]

theorem addVal_eq_map {b : Dict ℚ} (hnd : (keyList b).Nodup) (k : String) (dl : ℚ) :
    addVal b k dl = b.map (fun kv => (kv.1, kv.2 + if kv.1 = k then dl else 0)) := by
  induction b with
  | nil => rfl
  | cons kv rest ih =>
    rw [keyList_cons, List.nodup_cons] at hnd
    by_cases hk : kv.1 = k
    · rw [addVal, if_pos hk, List.map_cons, if_pos hk]
      have hrest : rest.map (fun kv => (kv.1, kv.2 + if kv.1 = k then dl else 0)) = rest := by
        have : ∀ x ∈ rest, (x.1, x.2 + if x.1 = k then dl else 0) = x := by
          intro x hx
          have hxk : x.1 ≠ k := by
            intro hxk
            exact hnd.1 (hk ▸ hxk ▸ List.mem_map.2 ⟨x, hx, rfl⟩)
          rw [if_neg hxk, add_zero]
        calc rest.map (fun kv => (kv.1, kv.2 + if kv.1 = k then dl else 0))
            = rest.map id := List.map_congr_left this
          _ = rest := List.map_id rest
      rw [hrest]
    · rw [addVal, if_neg hk, List.map_cons, if_neg hk, add_zero, ih hnd.2]

theorem keyList_foldl_addVal (g : ℚ → ℚ) (entries : Dict ℚ) :
    ∀ b : Dict ℚ,
      keyList (entries.foldl (fun b kv => addVal b kv.1 (g kv.2)) b) = keyList b := by
  induction entries with
  | nil => intro b; rfl
  | cons kv rest ih =>
    intro b
    rw [List.foldl_cons, ih, keyList_addVal]

theorem foldl_addVal_eq_map (g : ℚ → ℚ) (entries : Dict ℚ) :
    ∀ b : Dict ℚ, (keyList b).Nodup →
      entries.foldl (fun b kv => addVal b kv.1 (g kv.2)) b =
        b.map (fun kv => (kv.1, kv.2 + entrySumBy g entries kv.1)) := by
  induction entries with
  | nil =>
    intro b _
    have h0 : ∀ x ∈ b, (fun kv => (kv.1, kv.2 + entrySumBy g [] kv.1)) x = id x := by
      intro x _
      show (x.1, x.2 + entrySumBy g [] x.1) = x
      rw [entrySumBy, add_zero]
    rw [List.foldl_nil]
    exact ((List.map_congr_left h0).trans (List.map_id b)).symm
  | cons kv0 rest ih =>
    intro b hnd
    rw [List.foldl_cons]
    have hnd2 : (keyList (addVal b kv0.1 (g kv0.2))).Nodup := by
      rw [keyList_addVal]; exact hnd
    rw [ih _ hnd2, addVal_eq_map hnd, List.map_map]
    apply List.map_congr_left
    intro x _
    simp only [Function.comp]
    rw [entrySumBy]
    by_cases hx : x.1 = kv0.1
    · rw [if_pos hx, if_pos hx.symm]
      ring_nf
    · rw [if_neg hx, if_neg (fun h => hx h.symm), add_zero, zero_add]

theorem processExpense_eq_map {b : Dict ℚ} (hnd : (keyList b).Nodup) (e : Expense) :
    processExpense b e = b.map (fun kv => (kv.1, kv.2 + netContribution e kv.1)) := by
  rw [processExpense]
  have h1 : e.paid_amounts.foldl (fun b kv => addVal b kv.1 kv.2) b =
      b.map (fun kv => (kv.1, kv.2 + entrySumBy (fun v => v) e.paid_amounts kv.1)) :=
    foldl_addVal_eq_map (fun v => v) e.paid_amounts b hnd
  rw [h1]
  have hnd2 : (keyList (b.map
      (fun kv => (kv.1, kv.2 + entrySumBy (fun v => v) e.paid_amounts kv.1)))).Nodup := by
    have : keyList (b.map
        (fun kv => (kv.1, kv.2 + entrySumBy (fun v => v) e.paid_amounts kv.1))) = keyList b := by
      simp [keyList, List.map_map, Function.comp]
    rw [this]; exact hnd
  rw [foldl_addVal_eq_map (fun v => -v) e.splits _ hnd2, List.map_map]
  apply List.map_congr_left
  intro x _
  simp only [Function.comp]
  rw [entrySumBy_id, entrySumBy_neg, netContribution]
  ring_nf

theorem keyList_processExpense (b : Dict ℚ) (e : Expense) :
    keyList (processExpense b e) = keyList b := by
  rw [processExpense]
  rw [keyList_foldl_addVal (fun v => -v) e.splits]
  exact keyList_foldl_addVal (fun v => v) e.paid_amounts b

theorem foldl_processExpense_eq_map (es : List Expense) :
    ∀ b : Dict ℚ, (keyList b).Nodup →
      es.foldl processExpense b =
        b.map (fun kv => (kv.1, kv.2 + (es.map (fun e => netContribution e kv.1)).sum)) := by
  induction es with
  | nil =>
    intro b _
    have h0 : ∀ x ∈ b, (fun kv => (kv.1, kv.2 + (([] : List Expense).map
        (fun e => netContribution e kv.1)).sum)) x = id x := by
      intro x _
      show (x.1, x.2 + (([] : List Expense).map (fun e => netContribution e x.1)).sum) = x
      simp
    rw [List.foldl_nil]
    exact ((List.map_congr_left h0).trans (List.map_id b)).symm
  | cons e rest ih =>
    intro b hnd
    rw [List.foldl_cons]
    have hnd2 : (keyList (processExpense b e)).Nodup := by
      rw [keyList_processExpense]; exact hnd
    rw [ih _ hnd2, processExpense_eq_map hnd, List.map_map]
    apply List.map_congr_left
    intro x _
    simp only [Function.comp, List.map_cons, List.sum_cons]
    ring_nf

theorem keyList_map_pair (h : String → ℚ) :
    ∀ l : List String, keyList (l.map (fun m => (m, h m))) = l := by
  intro l
  induction l with
  | nil => rfl
  | cons a t ih =>
    rw [List.map_cons, keyList_cons, ih]

theorem keyList_calculate_balances (sp : ExpenseSplitter) (f : Option String) :
    keyList (calculate_balances sp f) = sp.members := by
  rw [calculate_balances]
  have h : ∀ (es : List Expense) (b : Dict ℚ),
      keyList (es.foldl processExpense b) = keyList b := by
    intro es
    induction es with
    | nil => intro b; rfl
    | cons e rest ih => intro b; rw [List.foldl_cons, ih, keyList_processExpense]
  rw [h]
  exact keyList_map_pair (fun _ => 0) sp.members

theorem calculate_balances_eq_map {sp : ExpenseSplitter} (f : Option String)
    (hnd : sp.members.Nodup) :
    calculate_balances sp f = sp.members.map (fun m => (m, netOf sp f m)) := by
  rw [calculate_balances]
  have hinit : keyList (sp.members.map (fun m => (m, (0 : ℚ)))) = sp.members :=
    keyList_map_pair (fun _ => 0) sp.members
  have hndi : (keyList (sp.members.map (fun m => (m, (0 : ℚ))))).Nodup := by
    rw [hinit]; exact hnd
  rw [foldl_processExpense_eq_map _ _ hndi, List.map_map]
  apply List.map_congr_left
  intro m _
  simp only [Function.comp]
  rw [netOf, zero_add]

theorem getVal_calculate_balances {sp : ExpenseSplitter} (f : Option String)
    (hnd : sp.members.Nodup) (m : String) :
    getVal (calculate_balances sp f) m = if m ∈ sp.members then netOf sp f m else 0 := by
  rw [calculate_balances_eq_map f hnd, getVal_map_self]

theorem inScope_some (es : List Expense) (g : String) :
    inScope es (some g) =
      if g ≠ "" ∧ g ≠ "All Groups" then es.filter (fun e => e.group = g) else es := rfl

theorem inScope_subset {es : List Expense} {f : Option String} :
    ∀ e ∈ inScope es f, e ∈ es := by
  intro e he
  cases f with
  | none => exact he
  | some g =>
    rw [inScope_some] at he
    by_cases hg : g ≠ "" ∧ g ≠ "All Groups"
    · rw [if_pos hg] at he
      exact (List.mem_filter.1 he).1
    · rw [if_neg hg] at he
      exact he

theorem inScope_perm {es₁ es₂ : List Expense} (f : Option String) (h : es₁.Perm es₂) :
    (inScope es₁ f).Perm (inScope es₂ f) := by
  cases f with
  | none => exact h
  | some g =>
    rw [inScope_some, inScope_some]
    by_cases hg : g ≠ "" ∧ g ≠ "All Groups"
    · rw [if_pos hg, if_pos hg]
      exact h.filter _
    · rw [if_neg hg, if_neg hg]
      exact h

/-! ### Lemmas about the greedy settlement loops -/

theorem settleOne_keys (d : String) (cs : Dict ℚ) : ∀ r : ℚ,
    keyList (settleOne d r cs).2.2 = keyList cs := by
  induction cs with
  | nil => intro r; rfl
  | cons cc rest ih =>
    intro r
    obtain ⟨c, credit⟩ := cc
    rw [settleOne]
    by_cases hr : r ≤ 1/100
    · rw [if_pos hr]
    · rw [if_neg hr]
      by_cases hc : 1/100 < credit
      · rw [if_pos hc]
        simp only [keyList_cons]
        rw [ih]
      · rw [if_neg hc]
        simp only [keyList_cons]
        rw [ih]

theorem settleOne_from (d : String) (cs : Dict ℚ) : ∀ r : ℚ,
    ∀ s ∈ (settleOne d r cs).1, s.from_ = d := by
  induction cs with
  | nil => intro r s hs; cases hs
  | cons cc rest ih =>
    intro r s hs
    obtain ⟨c, credit⟩ := cc
    rw [settleOne] at hs
    by_cases hr : r ≤ 1/100
    · rw [if_pos hr] at hs
      cases hs
    · rw [if_neg hr] at hs
      by_cases hc : 1/100 < credit
      · rw [if_pos hc] at hs
        simp only [List.mem_cons] at hs
        rcases hs with hs | hs
        · rw [hs]
        · exact ih _ s hs
      · rw [if_neg hc] at hs
        exact ih _ s hs

theorem settleOne_to (d : String) (cs : Dict ℚ) : ∀ r : ℚ,
    ∀ s ∈ (settleOne d r cs).1, s.to_ ∈ keyList cs := by
  induction cs with
  | nil => intro r s hs; cases hs
  | cons cc rest ih =>
    intro r s hs
    obtain ⟨c, credit⟩ := cc
    rw [settleOne] at hs
    by_cases hr : r ≤ 1/100
    · rw [if_pos hr] at hs
      cases hs
    · rw [if_neg hr] at hs
      by_cases hc : 1/100 < credit
      · rw [if_pos hc] at hs
        simp only [List.mem_cons] at hs
        rcases hs with hs | hs
        · rw [hs, keyList_cons]
          exact List.mem_cons_self c (keyList rest)
        · rw [keyList_cons]
          exact List.mem_cons_of_mem c (ih _ s hs)
      · rw [if_neg hc] at hs
        rw [keyList_cons]
        exact List.mem_cons_of_mem c (ih _ s hs)

theorem settleOne_rem_le (d : String) (cs : Dict ℚ) : ∀ r : ℚ,
    (settleOne d r cs).2.1 ≤ r := by
  induction cs with
  | nil => intro r; exact le_refl r
  | cons cc rest ih =>
    intro r
    obtain ⟨c, credit⟩ := cc
    rw [settleOne]
    by_cases hr : r ≤ 1/100
    · rw [if_pos hr]
    · rw [if_neg hr]
      by_cases hc : 1/100 < credit
      · rw [if_pos hc]
        show (settleOne d (r - min r credit) rest).2.1 ≤ r
        have h1 := ih (r - min r credit)
        have hpay : 0 ≤ min r credit := by
          have hr2 : (0 : ℚ) < r := lt_trans (by norm_num) (lt_of_not_le hr)
          have hc2 : (0 : ℚ) < credit := lt_trans (by norm_num) hc
          exact le_min (le_of_lt hr2) (le_of_lt hc2)
        linarith
      · rw [if_neg hc]
        show (settleOne d r rest).2.1 ≤ r
        exact ih r

theorem settleOne_rem_nonneg (d : String) (cs : Dict ℚ) : ∀ r : ℚ, 0 ≤ r →
    0 ≤ (settleOne d r cs).2.1 := by
  induction cs with
  | nil => intro r hr; exact hr
  | cons cc rest ih =>
    intro r hr
    obtain ⟨c, credit⟩ := cc
    rw [settleOne]
    by_cases h1 : r ≤ 1/100
    · rw [if_pos h1]; exact hr
    · rw [if_neg h1]
      by_cases hc : 1/100 < credit
      · rw [if_pos hc]
        simp only []
        exact ih (r - min r credit) (by
          have : min r credit ≤ r := min_le_left r credit
          linarith)
      · rw [if_neg hc]
        simp only []
        exact ih r hr

theorem settleOne_amounts (d : String) (cs : Dict ℚ) : ∀ r : ℚ,
    ((settleOne d r cs).1.map Settlement.amount).sum = r - (settleOne d r cs).2.1 := by
  induction cs with
  | nil => intro r; simp [settleOne]
  | cons cc rest ih =>
    intro r
    obtain ⟨c, credit⟩ := cc
    rw [settleOne]
    by_cases hr : r ≤ 1/100
    · rw [if_pos hr]; simp
    · rw [if_neg hr]
      by_cases hc : 1/100 < credit
      · rw [if_pos hc]
        simp only [List.map_cons, List.sum_cons]
        rw [ih (r - min r credit)]
        ring
      · rw [if_neg hc]
        simp only []
        exact ih r

theorem settleOne_recv (d : String) (cs : Dict ℚ) : ∀ (r : ℚ) (m : String),
    recvBy (settleOne d r cs).1 m = entrySum cs m - entrySum (settleOne d r cs).2.2 m := by
  induction cs with
  | nil => intro r m; simp [recvBy, entrySum]
  | cons cc rest ih =>
    intro r m
    obtain ⟨c, credit⟩ := cc
    rw [settleOne]
    by_cases hr : r ≤ 1/100
    · rw [if_pos hr]
      simp [recvBy]
    · rw [if_neg hr]
      by_cases hc : 1/100 < credit
      · rw [if_pos hc]
        simp only [recvBy, entrySum]
        rw [ih (r - min r credit) m]
        by_cases hm : c = m
        · rw [if_pos hm, if_pos hm, if_pos hm]
          ring
        · rw [if_neg hm, if_neg hm, if_neg hm]
          ring
      · rw [if_neg hc]
        simp only [recvBy, entrySum]
        rw [ih r m]
        ring

theorem settleOne_csum (d : String) (cs : Dict ℚ) : ∀ r : ℚ,
    sumValues (settleOne d r cs).2.2 = sumValues cs - (r - (settleOne d r cs).2.1) := by
  induction cs with
  | nil => intro r; simp [settleOne, sumValues]
  | cons cc rest ih =>
    intro r
    obtain ⟨c, credit⟩ := cc
    rw [settleOne]
    by_cases hr : r ≤ 1/100
    · rw [if_pos hr]
      simp
    · rw [if_neg hr]
      by_cases hc : 1/100 < credit
      · rw [if_pos hc]
        simp only [sumValues_cons]
        rw [ih (r - min r credit)]
        ring
      · rw [if_neg hc]
        simp only [sumValues_cons]
        rw [ih r]
        ring

theorem settleOne_mem_bound (d : String) (cs : Dict ℚ) : ∀ r : ℚ,
    ∀ kv ∈ (settleOne d r cs).2.2, ∃ kv0 ∈ cs, kv.1 = kv0.1 ∧ kv.2 ≤ kv0.2 := by
  induction cs with
  | nil => intro r kv hkv; cases hkv
  | cons cc rest ih =>
    intro r kv hkv
    obtain ⟨c, credit⟩ := cc
    rw [settleOne] at hkv
    by_cases hr : r ≤ 1/100
    · rw [if_pos hr] at hkv
      exact ⟨kv, hkv, rfl, le_refl _⟩
    · rw [if_neg hr] at hkv
      by_cases hc : 1/100 < credit
      · rw [if_pos hc] at hkv
        simp only [List.mem_cons] at hkv
        rcases hkv with hkv | hkv
        · refine ⟨(c, credit), List.mem_cons_self _ _, ?_, ?_⟩
          · rw [hkv]
          · rw [hkv]
            have : 0 ≤ min r credit := by
              have hr2 : (0 : ℚ) < r := lt_trans (by norm_num) (lt_of_not_le hr)
              have hc2 : (0 : ℚ) < credit := lt_trans (by norm_num) hc
              exact le_min (le_of_lt hr2) (le_of_lt hc2)
            simp only []
            linarith
        · obtain ⟨kv0, hkv0, h1, h2⟩ := ih _ kv hkv
          exact ⟨kv0, List.mem_cons_of_mem _ hkv0, h1, h2⟩
      · rw [if_neg hc] at hkv
        simp only [List.mem_cons] at hkv
        rcases hkv with hkv | hkv
        · exact ⟨(c, credit), List.mem_cons_self _ _, by rw [hkv], by rw [hkv]⟩
        · obtain ⟨kv0, hkv0, h1, h2⟩ := ih _ kv hkv
          exact ⟨kv0, List.mem_cons_of_mem _ hkv0, h1, h2⟩

theorem settleOne_nonneg (d : String) (cs : Dict ℚ) : ∀ r : ℚ,
    (∀ kv ∈ cs, 0 ≤ kv.2) → ∀ kv ∈ (settleOne d r cs).2.2, 0 ≤ kv.2 := by
  induction cs with
  | nil => intro r _ kv hkv; cases hkv
  | cons cc rest ih =>
    intro r hcs kv hkv
    obtain ⟨c, credit⟩ := cc
    have hhead : (0 : ℚ) ≤ credit := hcs (c, credit) (List.mem_cons_self _ _)
    have hrest : ∀ kv ∈ rest, (0 : ℚ) ≤ kv.2 :=
      fun x hx => hcs x (List.mem_cons_of_mem _ hx)
    rw [settleOne] at hkv
    by_cases hr : r ≤ 1/100
    · rw [if_pos hr] at hkv
      exact hcs kv hkv
    · rw [if_neg hr] at hkv
      by_cases hc : 1/100 < credit
      · rw [if_pos hc] at hkv
        simp only [List.mem_cons] at hkv
        rcases hkv with hkv | hkv
        · rw [hkv]
          have : min r credit ≤ credit := min_le_right r credit
          simp only []
          linarith
        · exact ih _ hrest kv hkv
      · rw [if_neg hc] at hkv
        simp only [List.mem_cons] at hkv
        rcases hkv with hkv | hkv
        · rw [hkv]; exact hhead
        · exact ih _ hrest kv hkv

theorem settleOne_break (d : String) (cs : Dict ℚ) : ∀ r : ℚ,
    (settleOne d r cs).2.1 ≤ 1/100 ∨ ∀ kv ∈ (settleOne d r cs).2.2, kv.2 ≤ 1/100 := by
  induction cs with
  | nil =>
    intro r
    right
    intro kv hkv
    cases hkv
  | cons cc rest ih =>
    intro r
    obtain ⟨c, credit⟩ := cc
    rw [settleOne]
    by_cases hr : r ≤ 1/100
    · rw [if_pos hr]
      left
      exact hr
    · rw [if_neg hr]
      by_cases hc : 1/100 < credit
      · rw [if_pos hc]
        by_cases hmin : r ≤ credit
        · left
          show (settleOne d (r - min r credit) rest).2.1 ≤ 1/100
          have heq : min r credit = r := min_eq_left hmin
          rw [heq, sub_self]
          have h1 := settleOne_rem_le d rest 0
          norm_num
          linarith
        · rcases ih (r - min r credit) with h | h
          · left
            show (settleOne d (r - min r credit) rest).2.1 ≤ 1/100
            exact h
          · right
            intro kv hkv
            simp only [List.mem_cons] at hkv
            rcases hkv with hkv | hkv
            · rw [hkv]
              have heq : min r credit = credit := min_eq_right (le_of_not_le hmin)
              show credit - min r credit ≤ 1/100
              rw [heq, sub_self]
              norm_num
            · exact h kv hkv
      · rw [if_neg hc]
        rcases ih r with h | h
        · left
          show (settleOne d r rest).2.1 ≤ 1/100
          exact h
        · right
          intro kv hkv
          simp only [List.mem_cons] at hkv
          rcases hkv with hkv | hkv
          · rw [hkv]
            exact le_of_not_lt hc
          · exact h kv hkv

theorem paidBy_append (ss₁ ss₂ : List Settlement) (m : String) :
    paidBy (ss₁ ++ ss₂) m = paidBy ss₁ m + paidBy ss₂ m := by
  induction ss₁ with
  | nil => simp [paidBy]
  | cons s rest ih =>
    rw [List.cons_append, paidBy, paidBy, ih]
    ring

theorem recvBy_append (ss₁ ss₂ : List Settlement) (m : String) :
    recvBy (ss₁ ++ ss₂) m = recvBy ss₁ m + recvBy ss₂ m := by
  induction ss₁ with
  | nil => simp [recvBy]
  | cons s rest ih =>
    rw [List.cons_append, recvBy, recvBy, ih]
    ring

theorem paidBy_of_all_from {ss : List Settlement} {d : String}
    (h : ∀ s ∈ ss, s.from_ = d) (m : String) :
    paidBy ss m = if d = m then (ss.map Settlement.amount).sum else 0 := by
  induction ss with
  | nil => simp [paidBy]
  | cons s rest ih =>
    have hs : s.from_ = d := h s (List.mem_cons_self _ _)
    have hrest := ih (fun x hx => h x (List.mem_cons_of_mem _ hx))
    rw [paidBy, hrest, hs, List.map_cons, List.sum_cons]
    by_cases hm : d = m
    · rw [if_pos hm, if_pos hm, if_pos hm]
    · rw [if_neg hm, if_neg hm, if_neg hm, add_zero]

theorem settleAll_keys (ds : List (String × ℚ)) : ∀ cs : Dict ℚ,
    keyList (settleAll ds cs).2.2 = keyList cs := by
  induction ds with
  | nil => intro cs; rfl
  | cons dd rest ih =>
    intro cs
    obtain ⟨dn, db⟩ := dd
    show keyList (settleAll rest (settleOne dn db cs).2.2).2.2 = keyList cs
    rw [ih, settleOne_keys]

theorem settleAll_rems_keys (ds : List (String × ℚ)) : ∀ cs : Dict ℚ,
    keyList (settleAll ds cs).2.1 = keyList ds := by
  induction ds with
  | nil => intro cs; rfl
  | cons dd rest ih =>
    intro cs
    obtain ⟨dn, db⟩ := dd
    show keyList ((dn, (settleOne dn db cs).2.1) ::
      (settleAll rest (settleOne dn db cs).2.2).2.1) = keyList ((dn, db) :: rest)
    rw [keyList_cons, keyList_cons, ih]

theorem settleAll_from (ds : List (String × ℚ)) : ∀ cs : Dict ℚ,
    ∀ s ∈ (settleAll ds cs).1, s.from_ ∈ keyList ds := by
  induction ds with
  | nil => intro cs s hs; cases hs
  | cons dd rest ih =>
    intro cs s hs
    obtain ⟨dn, db⟩ := dd
    have hs2 : s ∈ (settleOne dn db cs).1 ++ (settleAll rest (settleOne dn db cs).2.2).1 := hs
    rw [keyList_cons]
    rcases List.mem_append.1 hs2 with h | h
    · rw [settleOne_from dn cs db s h]
      exact List.mem_cons_self dn (keyList rest)
    · exact List.mem_cons_of_mem dn (ih _ s h)

theorem settleAll_to (ds : List (String × ℚ)) : ∀ cs : Dict ℚ,
    ∀ s ∈ (settleAll ds cs).1, s.to_ ∈ keyList cs := by
  induction ds with
  | nil => intro cs s hs; cases hs
  | cons dd rest ih =>
    intro cs s hs
    obtain ⟨dn, db⟩ := dd
    have hs2 : s ∈ (settleOne dn db cs).1 ++ (settleAll rest (settleOne dn db cs).2.2).1 := hs
    rcases List.mem_append.1 hs2 with h | h
    · exact settleOne_to dn cs db s h
    · have := ih _ s h
      rw [settleOne_keys] at this
      exact this

theorem settleAll_paid (ds : List (String × ℚ)) : ∀ (cs : Dict ℚ) (m : String),
    paidBy (settleAll ds cs).1 m = entrySum ds m - entrySum (settleAll ds cs).2.1 m := by
  induction ds with
  | nil => intro cs m; simp [paidBy, entrySum]
  | cons dd rest ih =>
    intro cs m
    obtain ⟨dn, db⟩ := dd
    have hsplit : (settleAll ((dn, db) :: rest) cs).1 =
        (settleOne dn db cs).1 ++ (settleAll rest (settleOne dn db cs).2.2).1 := rfl
    have hrems : (settleAll ((dn, db) :: rest) cs).2.1 =
        (dn, (settleOne dn db cs).2.1) :: (settleAll rest (settleOne dn db cs).2.2).2.1 := rfl
    rw [hsplit, hrems, paidBy_append,
      paidBy_of_all_from (fun s hs => settleOne_from dn cs db s hs) m,
      settleOne_amounts, ih _ m, entrySum, entrySum]
    by_cases hm : dn = m
    · rw [if_pos hm, if_pos hm, if_pos hm]
      ring
    · rw [if_neg hm, if_neg hm, if_neg hm]
      ring

theorem settleAll_recv (ds : List (String × ℚ)) : ∀ (cs : Dict ℚ) (m : String),
    recvBy (settleAll ds cs).1 m = entrySum cs m - entrySum (settleAll ds cs).2.2 m := by
  induction ds with
  | nil => intro cs m; simp [settleAll, recvBy]
  | cons dd rest ih =>
    intro cs m
    obtain ⟨dn, db⟩ := dd
    have hsplit : (settleAll ((dn, db) :: rest) cs).1 =
        (settleOne dn db cs).1 ++ (settleAll rest (settleOne dn db cs).2.2).1 := rfl
    have hcs : (settleAll ((dn, db) :: rest) cs).2.2 =
        (settleAll rest (settleOne dn db cs).2.2).2.2 := rfl
    rw [hsplit, hcs, recvBy_append, settleOne_recv, ih]
    ring

theorem settleAll_rems_nonneg (ds : List (String × ℚ)) : ∀ cs : Dict ℚ,
    (∀ kv ∈ ds, 0 ≤ kv.2) → ∀ kv ∈ (settleAll ds cs).2.1, 0 ≤ kv.2 := by
  induction ds with
  | nil => intro cs _ kv hkv; cases hkv
  | cons dd rest ih =>
    intro cs hds kv hkv
    obtain ⟨dn, db⟩ := dd
    have hkv2 : kv ∈ (dn, (settleOne dn db cs).2.1) ::
        (settleAll rest (settleOne dn db cs).2.2).2.1 := hkv
    rcases List.mem_cons.1 hkv2 with h | h
    · rw [h]
      exact settleOne_rem_nonneg dn cs db (hds (dn, db) (List.mem_cons_self _ _))
    · exact ih _ (fun x hx => hds x (List.mem_cons_of_mem _ hx)) kv h

theorem settleAll_mem_bound (ds : List (String × ℚ)) : ∀ cs : Dict ℚ,
    ∀ kv ∈ (settleAll ds cs).2.2, ∃ kv0 ∈ cs, kv.1 = kv0.1 ∧ kv.2 ≤ kv0.2 := by
  induction ds with
  | nil => intro cs kv hkv; exact ⟨kv, hkv, rfl, le_refl _⟩
  | cons dd rest ih =>
    intro cs kv hkv
    obtain ⟨dn, db⟩ := dd
    have hkv2 : kv ∈ (settleAll rest (settleOne dn db cs).2.2).2.2 := hkv
    obtain ⟨kv1, hkv1, he1, hle1⟩ := ih _ kv hkv2
    obtain ⟨kv0, hkv0, he0, hle0⟩ := settleOne_mem_bound dn cs db kv1 hkv1
    exact ⟨kv0, hkv0, he1.trans he0, hle1.trans hle0⟩

theorem settleAll_nonneg (ds : List (String × ℚ)) : ∀ cs : Dict ℚ,
    (∀ kv ∈ cs, 0 ≤ kv.2) → ∀ kv ∈ (settleAll ds cs).2.2, 0 ≤ kv.2 := by
  induction ds with
  | nil => intro cs hcs kv hkv; exact hcs kv hkv
  | cons dd rest ih =>
    intro cs hcs kv hkv
    obtain ⟨dn, db⟩ := dd
    have hkv2 : kv ∈ (settleAll rest (settleOne dn db cs).2.2).2.2 := hkv
    exact ih _ (settleOne_nonneg dn cs db hcs) kv hkv2

theorem settleAll_csum (ds : List (String × ℚ)) : ∀ cs : Dict ℚ,
    sumValues (settleAll ds cs).2.2 =
      sumValues cs - (sumValues ds - sumValues (settleAll ds cs).2.1) := by
  induction ds with
  | nil => intro cs; simp [settleAll, sumValues]
  | cons dd rest ih =>
    intro cs
    obtain ⟨dn, db⟩ := dd
    have hcs : (settleAll ((dn, db) :: rest) cs).2.2 =
        (settleAll rest (settleOne dn db cs).2.2).2.2 := rfl
    have hrems : (settleAll ((dn, db) :: rest) cs).2.1 =
        (dn, (settleOne dn db cs).2.1) :: (settleAll rest (settleOne dn db cs).2.2).2.1 := rfl
    rw [hcs, hrems, ih, settleOne_csum, sumValues_cons, sumValues_cons]
    ring

theorem settleAll_dichotomy (ds : List (String × ℚ)) : ∀ cs : Dict ℚ,
    (∀ kv ∈ (settleAll ds cs).2.1, kv.2 ≤ 1/100) ∨
      (∀ kv ∈ (settleAll ds cs).2.2, kv.2 ≤ 1/100) := by
  induction ds with
  | nil =>
    intro cs
    left
    intro kv hkv
    cases hkv
  | cons dd rest ih =>
    intro cs
    obtain ⟨dn, db⟩ := dd
    have hrems : (settleAll ((dn, db) :: rest) cs).2.1 =
        (dn, (settleOne dn db cs).2.1) :: (settleAll rest (settleOne dn db cs).2.2).2.1 := rfl
    have hcs : (settleAll ((dn, db) :: rest) cs).2.2 =
        (settleAll rest (settleOne dn db cs).2.2).2.2 := rfl
    rcases ih (settleOne dn db cs).2.2 with hrest | hrest
    · rcases settleOne_break dn cs db with hone | hone
      · left
        rw [hrems]
        intro kv hkv
        rcases List.mem_cons.1 hkv with h | h
        · rw [h]
          exact hone
        · exact hrest kv h
      · right
        rw [hcs]
        intro kv hkv
        obtain ⟨kv0, hkv0, _, hle⟩ := settleAll_mem_bound rest _ kv hkv
        exact hle.trans (hone kv0 hkv0)
    · right
      rw [hcs]
      exact hrest

/-! ### The three-way split of a balance dict -/

theorem key_val_unique {d : Dict ℚ} (hnd : (keyList d).Nodup) {m : String} {v w : ℚ}
    (h1 : (m, v) ∈ d) (h2 : (m, w) ∈ d) : v = w :=
  (entrySum_eq_of_mem hnd h1).symm.trans (entrySum_eq_of_mem hnd h2)

theorem keyList_filter_nodup {d : Dict ℚ} (hnd : (keyList d).Nodup)
    (p : String × ℚ → Bool) : (keyList (d.filter p)).Nodup :=
  List.Nodup.sublist (List.Sublist.map Prod.fst (List.filter_sublist d)) hnd

theorem mem_keyList_filter {d : Dict ℚ} {p : String × ℚ → Bool} {m : String}
    (h : m ∈ keyList (d.filter p)) : m ∈ keyList d :=
  List.Sublist.mem h (List.Sublist.map Prod.fst (List.filter_sublist d))

theorem sum_partition (bal : Dict ℚ) :
    sumValues (creditorsOf bal) + sumValues (negativesOf bal) + sumValues (smallsOf bal) =
      sumValues bal := by
  induction bal with
  | nil => simp [creditorsOf, negativesOf, smallsOf, sumValues]
  | cons kv rest ih =>
    simp only [creditorsOf, negativesOf, smallsOf, List.filter_cons,
      decide_eq_true_eq] at ih ⊢
    by_cases h1 : 1/100 < kv.2
    · have h2 : ¬ kv.2 < -(1/100) := by intro h; linarith
      rw [if_pos h1, if_neg h2, if_neg (fun h => h.1 h1), sumValues_cons, sumValues_cons]
      linarith [ih]
    · by_cases h2 : kv.2 < -(1/100)
      · rw [if_neg h1, if_pos h2, if_neg (fun h => h.2 h2), sumValues_cons, sumValues_cons]
        linarith [ih]
      · rw [if_neg h1, if_neg h2, if_pos ⟨h1, h2⟩, sumValues_cons, sumValues_cons]
        linarith [ih]

theorem length_partition (bal : Dict ℚ) :
    (creditorsOf bal).length + (negativesOf bal).length + (smallsOf bal).length =
      bal.length := by
  induction bal with
  | nil => rfl
  | cons kv rest ih =>
    simp only [creditorsOf, negativesOf, smallsOf, List.filter_cons,
      decide_eq_true_eq] at ih ⊢
    by_cases h1 : 1/100 < kv.2
    · have h2 : ¬ kv.2 < -(1/100) := by intro h; linarith
      rw [if_pos h1, if_neg h2, if_neg (fun h => h.1 h1)]
      simp only [List.length_cons]
      omega
    · by_cases h2 : kv.2 < -(1/100)
      · rw [if_neg h1, if_pos h2, if_neg (fun h => h.2 h2)]
        simp only [List.length_cons]
        omega
      · rw [if_neg h1, if_neg h2, if_pos ⟨h1, h2⟩]
        simp only [List.length_cons]
        omega

theorem keyList_map_abs (l : Dict ℚ) :
    keyList (l.map (fun kv => (kv.1, |kv.2|))) = keyList l := by
  induction l with
  | nil => rfl
  | cons kv rest ih =>
    rw [List.map_cons, keyList_cons, keyList_cons, ih]

theorem sumValues_map_abs_of_neg {l : Dict ℚ} (h : ∀ kv ∈ l, kv.2 < 0) :
    sumValues (l.map (fun kv => (kv.1, |kv.2|))) = -sumValues l := by
  induction l with
  | nil => simp [sumValues]
  | cons kv rest ih =>
    rw [List.map_cons, sumValues_cons, sumValues_cons]
    rw [ih (fun x hx => h x (List.mem_cons_of_mem _ hx))]
    rw [abs_of_neg (h kv (List.mem_cons_self _ _))]
    ring

theorem mem_creditorsOf {bal : Dict ℚ} {kv : String × ℚ} :
    kv ∈ creditorsOf bal ↔ kv ∈ bal ∧ 1/100 < kv.2 := by
  rw [creditorsOf, List.mem_filter, decide_eq_true_eq]

theorem mem_negativesOf {bal : Dict ℚ} {kv : String × ℚ} :
    kv ∈ negativesOf bal ↔ kv ∈ bal ∧ kv.2 < -(1/100) := by
  rw [negativesOf, List.mem_filter, decide_eq_true_eq]

theorem mem_smallsOf {bal : Dict ℚ} {kv : String × ℚ} :
    kv ∈ smallsOf bal ↔ kv ∈ bal ∧ ¬ 1/100 < kv.2 ∧ ¬ kv.2 < -(1/100) := by
  rw [smallsOf, List.mem_filter, decide_eq_true_eq]

theorem not_mem_keys_creditorsOf {bal : Dict ℚ} (hnd : (keyList bal).Nodup)
    {m : String} {v : ℚ} (hmv : (m, v) ∈ bal) (hv : ¬ 1/100 < v) :
    m ∉ keyList (creditorsOf bal) := by
  intro hm
  obtain ⟨kv, hkv, hfst⟩ := List.mem_map.1 hm
  obtain ⟨k1, v1⟩ := kv
  obtain ⟨hmem, hp⟩ := mem_creditorsOf.1 hkv
  cases hfst
  exact hv ((key_val_unique hnd hmv hmem) ▸ hp)

theorem not_mem_keys_negativesOf {bal : Dict ℚ} (hnd : (keyList bal).Nodup)
    {m : String} {v : ℚ} (hmv : (m, v) ∈ bal) (hv : ¬ v < -(1/100)) :
    m ∉ keyList (negativesOf bal) := by
  intro hm
  obtain ⟨kv, hkv, hfst⟩ := List.mem_map.1 hm
  obtain ⟨k1, v1⟩ := kv
  obtain ⟨hmem, hp⟩ := mem_negativesOf.1 hkv
  cases hfst
  exact hv ((key_val_unique hnd hmv hmem) ▸ hp)

theorem keyList_length {α : Type} (d : Dict α) : (keyList d).length = d.length :=
  List.length_map d Prod.fst

/-- Core bound for the greedy settlement planner: on a duplicate-free balance
dict whose values sum to zero, carrying out the plan leaves every member
within `0.01 * n` of zero, where `n` is the number of balances. -/
theorem settledBalance_bound (bal : Dict ℚ) (hnd : (keyList bal).Nodup)
    (hsum : sumValues bal = 0) (m : String) :
    |settledBalance bal (settlementsOf bal) m| ≤ 1/100 * bal.length := by
  have hplan : settlementsOf bal = (settleAll (debtorsOf bal) (creditorsOf bal)).1 := rfl
  have hCpos : ∀ kv ∈ creditorsOf bal, (0:ℚ) ≤ kv.2 := by
    intro kv hkv
    have := (mem_creditorsOf.1 hkv).2
    linarith
  have hDnn : ∀ kv ∈ debtorsOf bal, (0:ℚ) ≤ kv.2 := by
    intro kv hkv
    rw [debtorsOf] at hkv
    obtain ⟨kv0, _, hkv0⟩ := List.mem_map.1 hkv
    rw [← hkv0]
    exact abs_nonneg kv0.2
  have hdsum : sumValues (debtorsOf bal) = -sumValues (negativesOf bal) := by
    rw [debtorsOf]
    apply sumValues_map_abs_of_neg
    intro kv hkv
    have := (mem_negativesOf.1 hkv).2
    linarith
  have hndC : (keyList (creditorsOf bal)).Nodup := keyList_filter_nodup hnd _
  have hndN : (keyList (negativesOf bal)).Nodup := keyList_filter_nodup hnd _
  have hndD : (keyList (debtorsOf bal)).Nodup := by
    rw [debtorsOf, keyList_map_abs]; exact hndN
  have hkds : keyList (debtorsOf bal) = keyList (negativesOf bal) := by
    rw [debtorsOf, keyList_map_abs]
  have hndcs : (keyList (settleAll (debtorsOf bal) (creditorsOf bal)).2.2).Nodup := by
    rw [settleAll_keys]; exact hndC
  have hndrems : (keyList (settleAll (debtorsOf bal) (creditorsOf bal)).2.1).Nodup := by
    rw [settleAll_rems_keys]; exact hndD
  have hcsnn : ∀ kv ∈ (settleAll (debtorsOf bal) (creditorsOf bal)).2.2, (0:ℚ) ≤ kv.2 :=
    settleAll_nonneg _ _ hCpos
  have hremsnn : ∀ kv ∈ (settleAll (debtorsOf bal) (creditorsOf bal)).2.1, (0:ℚ) ≤ kv.2 :=
    settleAll_rems_nonneg _ _ hDnn
  have hrecv : recvBy (settlementsOf bal) m =
      entrySum (creditorsOf bal) m -
        entrySum (settleAll (debtorsOf bal) (creditorsOf bal)).2.2 m := by
    rw [hplan]; exact settleAll_recv _ _ m
  have hpaid : paidBy (settlementsOf bal) m =
      entrySum (debtorsOf bal) m -
        entrySum (settleAll (debtorsOf bal) (creditorsOf bal)).2.1 m := by
    rw [hplan]; exact settleAll_paid _ _ m
  have hlenpart : ((creditorsOf bal).length : ℚ) + (negativesOf bal).length +
      (smallsOf bal).length = bal.length := by
    exact_mod_cast length_partition bal
  have hlencs : ((settleAll (debtorsOf bal) (creditorsOf bal)).2.2.length : ℚ) =
      (creditorsOf bal).length := by
    have h1 := settleAll_keys (debtorsOf bal) (creditorsOf bal)
    have h2 : (keyList (settleAll (debtorsOf bal) (creditorsOf bal)).2.2).length =
        (keyList (creditorsOf bal)).length := by rw [h1]
    rw [keyList_length, keyList_length] at h2
    exact_mod_cast h2
  have hlenrems : ((settleAll (debtorsOf bal) (creditorsOf bal)).2.1.length : ℚ) =
      (negativesOf bal).length := by
    have h1 := settleAll_rems_keys (debtorsOf bal) (creditorsOf bal)
    rw [hkds] at h1
    have h2 : (keyList (settleAll (debtorsOf bal) (creditorsOf bal)).2.1).length =
        (keyList (negativesOf bal)).length := by rw [h1]
    rw [keyList_length, keyList_length] at h2
    exact_mod_cast h2
  have hSle : ∀ kv ∈ smallsOf bal, kv.2 ≤ 1/100 :=
    fun kv hkv => le_of_not_lt (mem_smallsOf.1 hkv).2.1
  have hSge : ∀ kv ∈ smallsOf bal, -(1/100) ≤ kv.2 :=
    fun kv hkv => le_of_not_lt (mem_smallsOf.1 hkv).2.2
  have hcons := settleAll_csum (debtorsOf bal) (creditorsOf bal)
  have hpart := sum_partition bal
  rw [hsum] at hpart
  have hcastC : (0:ℚ) ≤ ((creditorsOf bal).length : ℚ) := Nat.cast_nonneg _
  have hcastN : (0:ℚ) ≤ ((negativesOf bal).length : ℚ) := Nat.cast_nonneg _
  have hcastS : (0:ℚ) ≤ ((smallsOf bal).length : ℚ) := Nat.cast_nonneg _
  have hA : (∀ kv ∈ (settleAll (debtorsOf bal) (creditorsOf bal)).2.1, kv.2 ≤ 1/100) →
      sumValues (settleAll (debtorsOf bal) (creditorsOf bal)).2.2 ≤ 1/100 * bal.length := by
    intro h
    have h1 := sumValues_le_of_all_le h
    rw [hlenrems] at h1
    have h2 := le_sumValues_of_all_le hSge
    linarith
  have hB : (∀ kv ∈ (settleAll (debtorsOf bal) (creditorsOf bal)).2.2, kv.2 ≤ 1/100) →
      sumValues (settleAll (debtorsOf bal) (creditorsOf bal)).2.1 ≤ 1/100 * bal.length := by
    intro h
    have h1 := sumValues_le_of_all_le h
    rw [hlencs] at h1
    have h2 := sumValues_le_of_all_le hSle
    linarith
  have hdich := settleAll_dichotomy (debtorsOf bal) (creditorsOf bal)
  by_cases hm : m ∈ keyList bal
  · have hvex : ∃ v, (m, v) ∈ bal := by
      obtain ⟨kv, hkv, hfst⟩ := List.mem_map.1 hm
      refine ⟨kv.2, ?_⟩
      rw [← hfst, Prod.mk.eta]
      exact hkv
    obtain ⟨v, hv⟩ := hvex
    have hgv : getVal bal m = v := getVal_eq_of_mem hnd hv
    have hlen1 : (1:ℚ) ≤ bal.length := by
      have : 0 < bal.length := List.length_pos.2 (List.ne_nil_of_mem hv)
      exact_mod_cast this
    by_cases hvC : 1/100 < v
    · -- m is a creditor
      have hmemC : (m, v) ∈ creditorsOf bal := mem_creditorsOf.2 ⟨hv, hvC⟩
      have hEC : entrySum (creditorsOf bal) m = v := entrySum_eq_of_mem hndC hmemC
      have hnotN : m ∉ keyList (negativesOf bal) :=
        not_mem_keys_negativesOf hnd hv (by intro h; linarith)
      have hEds : entrySum (debtorsOf bal) m = 0 :=
        entrySum_eq_zero_of_not_mem (hkds ▸ hnotN)
      have hErems : entrySum (settleAll (debtorsOf bal) (creditorsOf bal)).2.1 m = 0 := by
        apply entrySum_eq_zero_of_not_mem
        rw [settleAll_rems_keys, hkds]
        exact hnotN
      have hsb : settledBalance bal (settlementsOf bal) m =
          entrySum (settleAll (debtorsOf bal) (creditorsOf bal)).2.2 m := by
        rw [settledBalance, hgv, hpaid, hrecv, hEds, hErems, hEC]
        ring
      have hEnn : 0 ≤ entrySum (settleAll (debtorsOf bal) (creditorsOf bal)).2.2 m :=
        entrySum_nonneg hcsnn m
      rw [hsb, abs_of_nonneg hEnn]
      rcases hdich with hd | hd
      · have h1 := entrySum_le_sumValues hcsnn m
        have h2 := hA hd
        linarith
      · have h1 := entrySum_le_of_all_le (by norm_num) hndcs hd m
        linarith
    · by_cases hvN : v < -(1/100)
      · -- m is a debtor
        have hmemN : (m, v) ∈ negativesOf bal := mem_negativesOf.2 ⟨hv, hvN⟩
        have hmemds : (m, |v|) ∈ debtorsOf bal := by
          rw [debtorsOf]
          exact List.mem_map.2 ⟨(m, v), hmemN, rfl⟩
        have hEds : entrySum (debtorsOf bal) m = -v := by
          rw [entrySum_eq_of_mem hndD hmemds]
          exact abs_of_neg (by linarith)
        have hnotC : m ∉ keyList (creditorsOf bal) :=
          not_mem_keys_creditorsOf hnd hv hvC
        have hEC : entrySum (creditorsOf bal) m = 0 :=
          entrySum_eq_zero_of_not_mem hnotC
        have hEcs : entrySum (settleAll (debtorsOf bal) (creditorsOf bal)).2.2 m = 0 := by
          apply entrySum_eq_zero_of_not_mem
          rw [settleAll_keys]
          exact hnotC
        have hsb : settledBalance bal (settlementsOf bal) m =
            -(entrySum (settleAll (debtorsOf bal) (creditorsOf bal)).2.1 m) := by
          rw [settledBalance, hgv, hpaid, hrecv, hEds, hEC, hEcs]
          ring
        have hRnn : 0 ≤ entrySum (settleAll (debtorsOf bal) (creditorsOf bal)).2.1 m :=
          entrySum_nonneg hremsnn m
        rw [hsb, abs_neg, abs_of_nonneg hRnn]
        rcases hdich with hd | hd
        · have h1 := entrySum_le_of_all_le (by norm_num) hndrems hd m
          linarith
        · have h1 := entrySum_le_sumValues hremsnn m
          have h2 := hB hd
          linarith
      · -- m is within tolerance and untouched
        have hnotC : m ∉ keyList (creditorsOf bal) :=
          not_mem_keys_creditorsOf hnd hv hvC
        have hnotN : m ∉ keyList (negativesOf bal) :=
          not_mem_keys_negativesOf hnd hv hvN
        have hEC : entrySum (creditorsOf bal) m = 0 :=
          entrySum_eq_zero_of_not_mem hnotC
        have hEds : entrySum (debtorsOf bal) m = 0 :=
          entrySum_eq_zero_of_not_mem (hkds ▸ hnotN)
        have hErems : entrySum (settleAll (debtorsOf bal) (creditorsOf bal)).2.1 m = 0 := by
          apply entrySum_eq_zero_of_not_mem
          rw [settleAll_rems_keys, hkds]
          exact hnotN
        have hEcs : entrySum (settleAll (debtorsOf bal) (creditorsOf bal)).2.2 m = 0 := by
          apply entrySum_eq_zero_of_not_mem
          rw [settleAll_keys]
          exact hnotC
        have hsb : settledBalance bal (settlementsOf bal) m = v := by
          rw [settledBalance, hgv, hpaid, hrecv, hEds, hErems, hEC, hEcs]
          ring
        rw [hsb]
        have habs : |v| ≤ 1/100 := abs_le.2 ⟨le_of_not_lt hvN, le_of_not_lt hvC⟩
        linarith
  · -- m is not a registered balance at all: nothing flows through m
    have hgv : getVal bal m = 0 := getVal_eq_zero_of_not_mem hm
    have hnotC : m ∉ keyList (creditorsOf bal) := by
      intro h
      exact hm (mem_keyList_filter (by rw [creditorsOf] at h; exact h))
    have hnotN : m ∉ keyList (negativesOf bal) := by
      intro h
      exact hm (mem_keyList_filter (by rw [negativesOf] at h; exact h))
    have hEC : entrySum (creditorsOf bal) m = 0 := entrySum_eq_zero_of_not_mem hnotC
    have hEds : entrySum (debtorsOf bal) m = 0 :=
      entrySum_eq_zero_of_not_mem (hkds ▸ hnotN)
    have hErems : entrySum (settleAll (debtorsOf bal) (creditorsOf bal)).2.1 m = 0 := by
      apply entrySum_eq_zero_of_not_mem
      rw [settleAll_rems_keys, hkds]
      exact hnotN
    have hEcs : entrySum (settleAll (debtorsOf bal) (creditorsOf bal)).2.2 m = 0 := by
      apply entrySum_eq_zero_of_not_mem
      rw [settleAll_keys]
      exact hnotC
    have hsb : settledBalance bal (settlementsOf bal) m = 0 := by
      rw [settledBalance, hgv, hpaid, hrecv, hEds, hErems, hEC, hEcs]
      ring
    rw [hsb, abs_zero]
    have : (0:ℚ) ≤ (bal.length : ℚ) := Nat.cast_nonneg _
    linarith

/-! ### Summation lemmas for the balance aggregator -/

theorem sum_map_add_distrib {α : Type} (l : List α) (f g : α → ℚ) :
    (l.map (fun x => f x + g x)).sum = (l.map f).sum + (l.map g).sum := by
  induction l with
  | nil => simp
  | cons a rest ih =>
    simp only [List.map_cons, List.sum_cons]
    rw [ih]
    ring

theorem sum_map_sub_distrib {α : Type} (l : List α) (f g : α → ℚ) :
    (l.map (fun x => f x - g x)).sum = (l.map f).sum - (l.map g).sum := by
  induction l with
  | nil => simp
  | cons a rest ih =>
    simp only [List.map_cons, List.sum_cons]
    rw [ih]
    ring

theorem sum_map_zero {α : Type} (l : List α) : (l.map (fun _ => (0:ℚ))).sum = 0 := by
  induction l with
  | nil => simp
  | cons a rest ih => simp [ih]

theorem sum_swap {α β : Type} (l₁ : List α) (l₂ : List β) (f : α → β → ℚ) :
    (l₁.map (fun a => (l₂.map (f a)).sum)).sum =
      (l₂.map (fun b => (l₁.map (fun a => f a b)).sum)).sum := by
  induction l₁ with
  | nil =>
    have h0 : ∀ b ∈ l₂, (List.map (fun a => f a b) []).sum = (fun _ : β => (0:ℚ)) b :=
      fun b _ => rfl
    rw [List.map_nil, List.sum_nil, List.map_congr_left h0, sum_map_zero]
  | cons a rest ih =>
    simp only [List.map_cons, List.sum_cons]
    rw [ih, ← sum_map_add_distrib]

theorem sum_ite_key_zero {k : String} {l : List String} (h : k ∉ l) (v : ℚ) :
    (l.map (fun m => if k = m then v else 0)).sum = 0 := by
  induction l with
  | nil => simp
  | cons a rest ih =>
    simp only [List.mem_cons, not_or] at h
    simp only [List.map_cons, List.sum_cons]
    rw [if_neg h.1, ih h.2, add_zero]

theorem sum_ite_key {k : String} {l : List String} (hnd : l.Nodup) (hk : k ∈ l) (v : ℚ) :
    (l.map (fun m => if k = m then v else 0)).sum = v := by
  induction l with
  | nil => cases hk
  | cons a rest ih =>
    rw [List.nodup_cons] at hnd
    simp only [List.map_cons, List.sum_cons]
    rcases List.mem_cons.1 hk with h | h
    · rw [if_pos h, sum_ite_key_zero (by rw [h]; exact hnd.1) v, add_zero]
    · have hka : k ≠ a := by
        intro he
        exact hnd.1 (he ▸ h)
      rw [if_neg hka, ih hnd.2 h, zero_add]

theorem sum_entrySum_eq_sumValues {members : List String} (hnd : members.Nodup) :
    ∀ d : Dict ℚ, (∀ k ∈ keyList d, k ∈ members) →
      (members.map (fun m => entrySum d m)).sum = sumValues d := by
  intro d
  induction d with
  | nil =>
    intro _
    have : ∀ m ∈ members, entrySum [] m = (fun _ : String => (0:ℚ)) m := by
      intro m _
      rfl
    rw [List.map_congr_left this, sum_map_zero]
    rfl
  | cons kv rest ih =>
    intro hsub
    have hsubr : ∀ k ∈ keyList rest, k ∈ members := by
      intro k hk
      exact hsub k (by rw [keyList_cons]; exact List.mem_cons_of_mem _ hk)
    have hhead : kv.1 ∈ members := hsub kv.1 (by rw [keyList_cons]; exact List.mem_cons_self _ _)
    have hstep : ∀ m ∈ members, entrySum (kv :: rest) m =
        (fun m => (if kv.1 = m then kv.2 else 0) + entrySum rest m) m := by
      intro m _
      rfl
    rw [List.map_congr_left hstep, sum_map_add_distrib, ih hsubr,
      sum_ite_key hnd hhead, sumValues_cons]

theorem abs_sum_le_of_all {α : Type} (l : List α) (f : α → ℚ) (c : ℚ)
    (h : ∀ x ∈ l, |f x| ≤ c) : |(l.map f).sum| ≤ c * l.length := by
  induction l with
  | nil => simp
  | cons a rest ih =>
    simp only [List.map_cons, List.sum_cons, List.length_cons]
    have h1 : |f a| ≤ c := h a (List.mem_cons_self _ _)
    have h2 := ih (fun x hx => h x (List.mem_cons_of_mem _ hx))
    have h3 : |f a + (rest.map f).sum| ≤ |f a| + |(rest.map f).sum| := abs_add _ _
    push_cast
    linarith

/-! ### Lemmas about the split calculator -/

theorem setVal_not_mem {d : Dict ℚ} {k : String} (h : k ∉ keyList d) (v : ℚ) :
    setVal d k v = d ++ [(k, v)] := by
  induction d with
  | nil => rfl
  | cons kv rest ih =>
    rw [keyList_cons] at h
    simp only [List.mem_cons, not_or] at h
    rw [setVal, if_neg (fun he => h.1 he.symm), List.cons_append, ih h.2]

theorem foldl_setVal_eq_append (f : String → ℚ) :
    ∀ (ks : List String) (acc : Dict ℚ), ks.Nodup → (∀ k ∈ ks, k ∉ keyList acc) →
      ks.foldl (fun d k => setVal d k (f k)) acc = acc ++ ks.map (fun k => (k, f k)) := by
  intro ks
  induction ks with
  | nil => intro acc _ _; simp
  | cons k0 rest ih =>
    intro acc hnd hdisj
    rw [List.nodup_cons] at hnd
    rw [List.foldl_cons, setVal_not_mem (hdisj k0 (List.mem_cons_self _ _)) (f k0)]
    rw [ih _ hnd.2 (fun k hk => by
      rw [keyList_append]
      simp only [List.mem_append, not_or]
      refine ⟨hdisj k (List.mem_cons_of_mem _ hk), ?_⟩
      show k ∉ keyList [(k0, f k0)]
      rw [keyList_cons]
      simp only [List.mem_cons, not_or]
      exact ⟨fun he => hnd.1 (he ▸ hk), fun hc => List.not_mem_nil k hc⟩)]
    rw [List.append_assoc, List.map_cons]
    rfl

theorem dictComp_eq_map {ks : List String} (hnd : ks.Nodup) (f : String → ℚ) :
    dictComp ks f = ks.map (fun k => (k, f k)) := by
  rw [dictComp, foldl_setVal_eq_append f ks [] hnd (fun k _ hk => List.not_mem_nil k hk)]
  rfl

theorem sumValues_map_pair (ks : List String) (f : String → ℚ) :
    sumValues (ks.map (fun k => (k, f k))) = (ks.map f).sum := by
  induction ks with
  | nil => rfl
  | cons k rest ih =>
    rw [List.map_cons, sumValues_cons, List.map_cons, List.sum_cons, ih]

theorem sum_map_const (ks : List String) (c : ℚ) :
    (ks.map (fun _ => c)).sum = ks.length * c := by
  induction ks with
  | nil => simp
  | cons k rest ih =>
    rw [List.map_cons, List.sum_cons, ih, List.length_cons]
    push_cast
    ring

theorem setVal_all {P : ℚ → Prop} {d : Dict ℚ} (hP : ∀ kv ∈ d, P kv.2) {v : ℚ}
    (hv : P v) (k : String) : ∀ kv ∈ setVal d k v, P kv.2 := by
  induction d with
  | nil =>
    intro kv hkv
    rcases List.mem_singleton.1 hkv with h
    rw [h]
    exact hv
  | cons kv0 rest ih =>
    intro kv hkv
    rw [setVal] at hkv
    by_cases hk : kv0.1 = k
    · rw [if_pos hk] at hkv
      rcases List.mem_cons.1 hkv with h | h
      · rw [h]; exact hv
      · exact hP kv (List.mem_cons_of_mem _ h)
    · rw [if_neg hk] at hkv
      rcases List.mem_cons.1 hkv with h | h
      · rw [h]; exact hP kv0 (List.mem_cons_self _ _)
      · exact ih (fun x hx => hP x (List.mem_cons_of_mem _ hx)) kv h

theorem dictComp_zero_all (ks : List String) :
    ∀ kv ∈ dictComp ks (fun _ => 0), kv.2 = 0 := by
  rw [dictComp]
  have h : ∀ (acc : Dict ℚ), (∀ kv ∈ acc, kv.2 = (0:ℚ)) →
      ∀ kv ∈ ks.foldl (fun d k => setVal d k ((fun _ => (0:ℚ)) k)) acc, kv.2 = 0 := by
    induction ks with
    | nil => intro acc hacc kv hkv; exact hacc kv hkv
    | cons k0 rest ih =>
      intro acc hacc kv hkv
      rw [List.foldl_cons] at hkv
      exact ih _ (@setVal_all (fun v => v = 0) acc hacc 0 rfl k0) kv hkv
  exact h [] (fun kv hkv => absurd hkv (List.not_mem_nil kv))

theorem sumValues_eq_zero_of_all {d : Dict ℚ} (h : ∀ kv ∈ d, kv.2 = 0) :
    sumValues d = 0 := by
  induction d with
  | nil => rfl
  | cons kv rest ih =>
    rw [sumValues_cons, h kv (List.mem_cons_self _ _),
      ih (fun x hx => h x (List.mem_cons_of_mem _ hx)), add_zero]

theorem getVal_eq_zero_of_all {d : Dict ℚ} (h : ∀ kv ∈ d, kv.2 = 0) (m : String) :
    getVal d m = 0 := by
  induction d with
  | nil => rfl
  | cons kv rest ih =>
    rw [getVal]
    by_cases hk : kv.1 = m
    · rw [if_pos hk]
      exact h kv (List.mem_cons_self _ _)
    · rw [if_neg hk]
      exact ih (fun x hx => h x (List.mem_cons_of_mem _ hx))

theorem sum_getVal_keyList {d : Dict ℚ} (hnd : (keyList d).Nodup) :
    ((keyList d).map (fun k => getVal d k)).sum = sumValues d := by
  induction d with
  | nil => rfl
  | cons kv rest ih =>
    rw [keyList_cons] at hnd ⊢
    rw [List.nodup_cons] at hnd
    rw [List.map_cons, List.sum_cons, getVal, if_pos rfl, sumValues_cons]
    have hcong : ∀ k ∈ keyList rest, getVal (kv :: rest) k = (fun k => getVal rest k) k := by
      intro k hk
      show getVal (kv :: rest) k = getVal rest k
      rw [getVal, if_neg (fun he => hnd.1 (by rw [he]; exact hk))]
    rw [List.map_congr_left hcong, ih hnd.2]

theorem filter_keys_perm {sa : List String} {d : Dict ℚ} (hsa : sa.Nodup)
    (hnd : (keyList d).Nodup) (hsub : ∀ k ∈ keyList d, k ∈ sa) :
    (sa.filter (fun m => m ∈ keyList d)).Perm (keyList d) := by
  rw [List.perm_ext_iff_of_nodup (List.Nodup.filter _ hsa) hnd]
  intro a
  rw [List.mem_filter, decide_eq_true_eq]
  constructor
  · exact fun h => h.2
  · exact fun h => ⟨hsub a h, h⟩

theorem computeSplits_equal {amount : ℚ} {sa : List String} (hne : sa ≠ [])
    (cs rs : Option (Dict ℚ)) :
    computeSplits amount sa "equal" cs rs =
      some (dictComp sa (fun _ => amount / (sa.length : ℚ))) := by
  rw [computeSplits, if_pos rfl,
    if_neg (fun h => hne (List.length_eq_zero.1 h))]

theorem computeSplits_equal_nil (amount : ℚ) (cs rs : Option (Dict ℚ)) :
    computeSplits amount [] "equal" cs rs = none := by
  rw [computeSplits, if_pos rfl]
  rfl

theorem computeSplits_custom (amount : ℚ) (sa : List String) {d : Dict ℚ} (hd : d ≠ [])
    (rs : Option (Dict ℚ)) :
    computeSplits amount sa "custom" (some d) rs = some d := by
  rw [computeSplits, if_neg (by simp), if_pos ⟨rfl, by simpa using hd⟩]
  rfl

theorem computeSplits_ratio (amount : ℚ) (sa : List String) {d : Dict ℚ} (hd : d ≠ [])
    (hpos : 0 < sumValues d) (cs : Option (Dict ℚ)) :
    computeSplits amount sa "ratio" cs (some d) =
      some (dictComp (sa.filter (fun m => m ∈ keyList d))
        (fun m => getVal d m / sumValues d * amount)) := by
  rw [computeSplits, if_neg (by simp), if_neg (by simp), if_pos ⟨rfl, by simpa using hd⟩]
  show (if sumValues d = 0 ∧ sa.filter (fun m => m ∈ keyList d) ≠ [] then none
    else some (dictComp (sa.filter (fun m => m ∈ keyList d))
      (fun m => getVal d m / sumValues d * amount))) = _
  rw [if_neg (fun h => absurd h.1 (ne_of_gt hpos))]

theorem computeSplits_other {amount : ℚ} {sa : List String} {st : String}
    {cs rs : Option (Dict ℚ)} (h1 : st ≠ "equal")
    (h2 : ¬(st = "custom" ∧ (cs.getD []) ≠ []))
    (h3 : ¬(st = "ratio" ∧ (rs.getD []) ≠ [])) :
    computeSplits amount sa st cs rs = some (dictComp sa (fun _ => 0)) := by
  rw [computeSplits, if_neg h1, if_neg h2, if_neg h3]

theorem add_expense_of_computeSplits {sp : ExpenseSplitter} {expense_id description : String}
    {amount : ℚ} {paid_by : List String} {paid_amounts : Dict ℚ}
    {split_among : List String} {split_type : String}
    {custom_splits ratio_splits : Option (Dict ℚ)} {date group : String} {s : Dict ℚ}
    (h : computeSplits amount split_among split_type custom_splits ratio_splits = some s) :
    add_expense sp expense_id description amount paid_by paid_amounts split_among
        split_type custom_splits ratio_splits date group =
      some ({ sp with expenses := sp.expenses ++
        [{ id := expense_id, description := description, amount := amount,
           paid_by := paid_by, paid_amounts := paid_amounts,
           split_among := split_among, splits := s, date := date,
           group := group }] }, expense_id) := by
  rw [add_expense, h]

theorem add_expense_of_computeSplits_none {sp : ExpenseSplitter}
    {expense_id description : String} {amount : ℚ} {paid_by : List String}
    {paid_amounts : Dict ℚ} {split_among : List String} {split_type : String}
    {custom_splits ratio_splits : Option (Dict ℚ)} {date group : String}
    (h : computeSplits amount split_among split_type custom_splits ratio_splits = none) :
    add_expense sp expense_id description amount paid_by paid_amounts split_among
        split_type custom_splits ratio_splits date group = none := by
  rw [add_expense, h]

/-! ### Claim theorems -/

/-- C4: `calculate_balances` returns a mapping whose keys are exactly the
registry members, where each member's value is the sum of that member's
`paid_amounts` entries minus the sum of that member's `splits` entries over the
in-scope expenses, and a registry member appearing in no in-scope expense maps
to 0. -/
theorem calculate_balances_spec (sp : ExpenseSplitter) (f : Option String)
    (hnd : sp.members.Nodup) :
    keyList (calculate_balances sp f) = sp.members ∧
    (∀ m ∈ sp.members, getVal (calculate_balances sp f) m = netOf sp f m) ∧
    (∀ m ∈ sp.members,
      (∀ e ∈ inScope sp.expenses f, m ∉ keyList e.paid_amounts ∧ m ∉ keyList e.splits) →
      getVal (calculate_balances sp f) m = 0) := by
  refine ⟨keyList_calculate_balances sp f, ?_, ?_⟩
  · intro m hm
    rw [getVal_calculate_balances f hnd m, if_pos hm]
  · intro m hm h
    rw [getVal_calculate_balances f hnd m, if_pos hm, netOf]
    have h0 : ∀ e ∈ inScope sp.expenses f,
        netContribution e m = (fun _ : Expense => (0:ℚ)) e := by
      intro e he
      show netContribution e m = 0
      rw [netContribution, entrySum_eq_zero_of_not_mem (h e he).1,
        entrySum_eq_zero_of_not_mem (h e he).2, sub_zero]
    rw [List.map_congr_left h0, sum_map_zero]

def w4exp : Expense :=
  { id := "1", description := "lunch", amount := 10, paid_by := ["A"],
    paid_amounts := [("A", 10)], split_among := ["B"],
    splits := [("B", 10)], date := "t", group := "General" }

def w4 : ExpenseSplitter := { expenses := [w4exp], groups := [], members := ["A", "B", "C"] }

theorem calculate_balances_spec_witness :
    keyList (calculate_balances w4 none) = w4.members ∧
    getVal (calculate_balances w4 none) "A" = netOf w4 none "A" ∧
    getVal (calculate_balances w4 none) "C" = 0 :=
  ⟨(calculate_balances_spec w4 none (by decide)).1,
   (calculate_balances_spec w4 none (by decide)).2.1 "A" (by decide),
   (calculate_balances_spec w4 none (by decide)).2.2 "C" (by decide) (by decide)⟩

/-- C6: `calculate_balances` is invariant under permutations of the expense
list (order of expense processing does not affect the result). -/
theorem calculate_balances_perm_invariant (ms : List String)
    (gs : List (String × List String)) (es₁ es₂ : List Expense) (f : Option String)
    (hnd : ms.Nodup) (hp : es₁.Perm es₂) :
    calculate_balances ⟨es₁, gs, ms⟩ f = calculate_balances ⟨es₂, gs, ms⟩ f := by
  rw [calculate_balances_eq_map f hnd, calculate_balances_eq_map f hnd]
  apply List.map_congr_left
  intro m _
  have h : netOf ⟨es₁, gs, ms⟩ f m = netOf ⟨es₂, gs, ms⟩ f m := by
    rw [netOf, netOf]
    exact List.Perm.sum_eq (List.Perm.map _ (inScope_perm f hp))
  rw [h]

def w6a : Expense :=
  { id := "1", description := "x", amount := 10, paid_by := ["A"],
    paid_amounts := [("A", 10)], split_among := ["B"],
    splits := [("B", 10)], date := "t", group := "General" }

def w6b : Expense :=
  { id := "2", description := "y", amount := 4, paid_by := ["B"],
    paid_amounts := [("B", 4)], split_among := ["A"],
    splits := [("A", 4)], date := "t", group := "Trip" }

theorem calculate_balances_perm_invariant_witness :
    calculate_balances ⟨[w6a, w6b], [], ["A", "B"]⟩ none =
      calculate_balances ⟨[w6b, w6a], [], ["A", "B"]⟩ none :=
  calculate_balances_perm_invariant ["A", "B"] [] [w6a, w6b] [w6b, w6a] none
    (by decide) (List.Perm.swap w6b w6a [])

/-- C8: importing the snapshot produced by `export_data` succeeds and
reproduces the same expense list, the same groups mapping, and the same set of
member names. -/
theorem import_export_roundtrip (sp : ExpenseSplitter) (date : String) :
    (import_data sp (export_data sp date)).2 = true ∧
    (import_data sp (export_data sp date)).1.expenses = sp.expenses ∧
    (import_data sp (export_data sp date)).1.groups = sp.groups ∧
    ∀ m : String, m ∈ (import_data sp (export_data sp date)).1.members ↔ m ∈ sp.members := by
  have h : import_data sp (export_data sp date) =
      ({ expenses := sp.expenses, groups := sp.groups,
         members := sp.members.dedup }, true) := by
    rw [import_data, if_pos ⟨rfl, rfl⟩]
    rfl
  rw [h]
  exact ⟨rfl, rfl, rfl, fun m => List.mem_dedup⟩

/-- C9: any `add_expense` call that falls outside the three recognised split
configurations (equal; custom with a truthy `custom_splits`; ratio with a
truthy `ratio_splits`) is silently accepted and stores an expense whose splits
map every member of `split_among` to 0, so the stored splits sum to 0. -/
theorem add_expense_fallthrough_zero_splits (sp : ExpenseSplitter)
    (expense_id description : String) (amount : ℚ) (paid_by : List String)
    (paid_amounts : Dict ℚ) (split_among : List String) (split_type : String)
    (custom_splits ratio_splits : Option (Dict ℚ)) (date group : String)
    (h1 : split_type ≠ "equal")
    (h2 : ¬(split_type = "custom" ∧ (custom_splits.getD []) ≠ []))
    (h3 : ¬(split_type = "ratio" ∧ (ratio_splits.getD []) ≠ [])) :
    ∃ e : Expense,
      add_expense sp expense_id description amount paid_by paid_amounts split_among
          split_type custom_splits ratio_splits date group =
        some ({ sp with expenses := sp.expenses ++ [e] }, expense_id) ∧
      (∀ m ∈ split_among, getVal e.splits m = 0) ∧
      sumValues e.splits = 0 := by
  refine ⟨_, add_expense_of_computeSplits (computeSplits_other h1 h2 h3), ?_, ?_⟩
  · intro m _
    exact getVal_eq_zero_of_all (dictComp_zero_all split_among) m
  · exact sumValues_eq_zero_of_all (dictComp_zero_all split_among)

theorem add_expense_fallthrough_zero_splits_witness :
    ∃ e : Expense,
      add_expense ⟨[], [], ["A", "B"]⟩ "i9" "snacks" 10 ["A"] [("A", 10)] ["A", "B"]
          "oops" none none "t" "General" =
        some ({ expenses := [] ++ [e], groups := [], members := ["A", "B"] }, "i9") ∧
      (∀ m ∈ ["A", "B"], getVal e.splits m = 0) ∧
      sumValues e.splits = 0 :=
  add_expense_fallthrough_zero_splits ⟨[], [], ["A", "B"]⟩ "i9" "snacks" 10 ["A"]
    [("A", 10)] ["A", "B"] "oops" none none "t" "General"
    (by decide) (by decide) (by decide)

/-- C10: with split type "equal", the division `amount / len(split_among)` is
guarded by nothing: the call succeeds whenever `split_among` is non-empty and
raises `ZeroDivisionError` (modelled as `none`) when it is empty. -/
theorem add_expense_equal_totality (sp : ExpenseSplitter)
    (expense_id description : String) (amount : ℚ) (paid_by : List String)
    (paid_amounts : Dict ℚ) (split_among : List String)
    (custom_splits ratio_splits : Option (Dict ℚ)) (date group : String) :
    (split_among ≠ [] →
      (add_expense sp expense_id description amount paid_by paid_amounts split_among
        "equal" custom_splits ratio_splits date group).isSome = true) ∧
    (split_among = [] →
      add_expense sp expense_id description amount paid_by paid_amounts split_among
        "equal" custom_splits ratio_splits date group = none) := by
  constructor
  · intro hne
    rw [add_expense_of_computeSplits (computeSplits_equal hne custom_splits ratio_splits)]
    rfl
  · intro he
    subst he
    exact add_expense_of_computeSplits_none
      (computeSplits_equal_nil amount custom_splits ratio_splits)

theorem add_expense_equal_totality_witness :
    (add_expense ⟨[], [], ["A"]⟩ "i10" "d" 10 ["A"] [("A", 10)] ["A"]
      "equal" none none "t" "G").isSome = true ∧
    add_expense ⟨[], [], ["A"]⟩ "i10" "d" 10 ["A"] [("A", 10)] []
      "equal" none none "t" "G" = none :=
  ⟨(add_expense_equal_totality ⟨[], [], ["A"]⟩ "i10" "d" 10 ["A"] [("A", 10)] ["A"]
      none none "t" "G").1 (by decide),
   (add_expense_equal_totality ⟨[], [], ["A"]⟩ "i10" "d" 10 ["A"] [("A", 10)] []
      none none "t" "G").2 rfl⟩

theorem sum_map_div_mul {α : Type} (l : List α) (h : α → ℚ) (t a : ℚ) :
    (l.map (fun x => h x / t * a)).sum = (l.map h).sum / t * a := by
  induction l with
  | nil => simp
  | cons x rest ih =>
    simp only [List.map_cons, List.sum_cons]
    rw [ih]
    ring

/-- A fully conserving ledger (paid amounts and splits sum exactly to the
amount, balances sum to 0) on which the settlement planner nevertheless leaves
member A holding +0.02: A is a creditor (0.02 > 0.01), but B and C, at -0.01
each, are below the debtor threshold, so no settlement is emitted. -/
def cex1exp : Expense :=
  { id := "1", description := "d", amount := 2/100, paid_by := ["A"],
    paid_amounts := [("A", 2/100)], split_among := ["B", "C"],
    splits := [("B", 1/100), ("C", 1/100)], date := "t", group := "General" }

def cex1 : ExpenseSplitter :=
  { expenses := [cex1exp], groups := [], members := ["A", "B", "C"] }

/-- C1 counterexample: for the ledger `cex1` (whose balances even sum to
exactly 0), carrying out the settlement list returned by `get_settlements`
leaves member A's balance at 0.02, outside the claimed 0.01 tolerance. -/
theorem get_settlements_leaves_small_creditor_unsettled :
    "A" ∈ cex1.members ∧
    sumValues (calculate_balances cex1 none) = 0 ∧
    ¬(|settledBalance (calculate_balances cex1 none) (get_settlements cex1 none) "A"| ≤
        1/100) := by
  refine ⟨by decide, ?_, ?_⟩
  · norm_num [cex1, cex1exp, calculate_balances, inScope, processExpense, addVal, sumValues,
      show ("A":String) ≠ "B" by simp, show ("A":String) ≠ "C" by simp,
      show ("B":String) ≠ "A" by simp, show ("B":String) ≠ "C" by simp,
      show ("C":String) ≠ "A" by simp, show ("C":String) ≠ "B" by simp]
  · rw [abs_le]
    norm_num [cex1, cex1exp, calculate_balances, inScope, processExpense, addVal,
      settledBalance, getVal, get_settlements, settlementsOf, creditorsOf, negativesOf,
      debtorsOf, settleOne, settleAll, paidBy, recvBy,
      show ("A":String) ≠ "B" by simp, show ("A":String) ≠ "C" by simp,
      show ("B":String) ≠ "A" by simp, show ("B":String) ≠ "C" by simp,
      show ("C":String) ≠ "A" by simp, show ("C":String) ≠ "B" by simp]

/-- C1 amended: for a duplicate-free registry whose computed balances sum to
zero, carrying out the settlement plan brings every member's balance within
`0.01 * n` of zero, where `n` is the number of registry members (0.01 alone is
not achievable: balances within the 0.01 tolerance are excluded from both
sides and their residue accumulates). -/
theorem get_settlements_settles_within_scaled_epsilon (sp : ExpenseSplitter)
    (f : Option String) (hnd : sp.members.Nodup)
    (hsum : sumValues (calculate_balances sp f) = 0) (m : String) :
    |settledBalance (calculate_balances sp f) (get_settlements sp f) m| ≤
      1/100 * sp.members.length := by
  have hk : keyList (calculate_balances sp f) = sp.members :=
    keyList_calculate_balances sp f
  have hlen : ((calculate_balances sp f).length : ℚ) = (sp.members.length : ℚ) := by
    have h1 := keyList_length (calculate_balances sp f)
    rw [hk] at h1
    exact_mod_cast h1.symm
  have hndb : (keyList (calculate_balances sp f)).Nodup := by
    rw [hk]; exact hnd
  have hb := settledBalance_bound (calculate_balances sp f) hndb hsum m
  rw [hlen] at hb
  exact hb

def w1exp : Expense :=
  { id := "1", description := "Dinner", amount := 90, paid_by := ["A"],
    paid_amounts := [("A", 90)], split_among := ["A", "B", "C"],
    splits := [("A", 30), ("B", 30), ("C", 30)], date := "t", group := "General" }

def w1 : ExpenseSplitter :=
  { expenses := [w1exp], groups := [], members := ["A", "B", "C"] }

theorem get_settlements_settles_within_scaled_epsilon_witness :
    |settledBalance (calculate_balances w1 none) (get_settlements w1 none) "B"| ≤
      1/100 * w1.members.length :=
  get_settlements_settles_within_scaled_epsilon w1 none (by decide)
    (by norm_num [w1, w1exp, calculate_balances, inScope, processExpense, addVal, sumValues,
      show ("A":String) ≠ "B" by simp, show ("A":String) ≠ "C" by simp,
      show ("B":String) ≠ "A" by simp, show ("B":String) ≠ "C" by simp,
      show ("C":String) ≠ "A" by simp, show ("C":String) ≠ "B" by simp]) "B"

/-- C2 counterexample: an `add_expense` call with an unrecognised split type is
accepted without raising and stores splits that sum to 0, not to the expense
amount 10. -/
theorem splits_sum_invariant_counterexample :
    add_expense ⟨[], [], ["A", "B"]⟩ "i2c" "d" 10 ["A"] [("A", 10)] ["A", "B"]
        "oops" none none "t" "General" =
      some (⟨[⟨"i2c", "d", 10, ["A"], [("A", 10)], ["A", "B"],
        [("A", 0), ("B", 0)], "t", "General"⟩], [], ["A", "B"]⟩, "i2c") ∧
    ¬(|sumValues [("A", (0:ℚ)), ("B", 0)] - 10| ≤ 1/100) := by
  constructor
  · rfl
  · rw [abs_le]
    norm_num [sumValues]

/-- C2 amended: the stored splits sum to the amount within 0.01 for the three
well-formed configurations — equal split over a non-empty duplicate-free
participant list; custom split whose supplied values sum to the amount within
0.01; ratio split with positive total weight, duplicate-free keys all drawn
from a duplicate-free `split_among` — and the call only ever appends the new
expense, leaving prior expenses untouched.  (It fails in general: see the
fallthrough and custom cases.) -/
theorem add_expense_splits_sum_invariant_amended (sp : ExpenseSplitter)
    (expense_id description : String) (amount : ℚ) (paid_by : List String)
    (paid_amounts : Dict ℚ) (split_among : List String) (split_type : String)
    (custom_splits ratio_splits : Option (Dict ℚ)) (date group : String)
    (h : (split_type = "equal" ∧ split_among ≠ [] ∧ split_among.Nodup) ∨
         (split_type = "custom" ∧ ∃ d, custom_splits = some d ∧ d ≠ [] ∧
           |sumValues d - amount| ≤ 1/100) ∨
         (split_type = "ratio" ∧ ∃ d, ratio_splits = some d ∧ d ≠ [] ∧
           0 < sumValues d ∧ (keyList d).Nodup ∧ split_among.Nodup ∧
           (∀ k ∈ keyList d, k ∈ split_among))) :
    ∃ e : Expense,
      add_expense sp expense_id description amount paid_by paid_amounts split_among
          split_type custom_splits ratio_splits date group =
        some ({ sp with expenses := sp.expenses ++ [e] }, expense_id) ∧
      e.amount = amount ∧ |sumValues e.splits - amount| ≤ 1/100 := by
  rcases h with ⟨hst, hne, hnd⟩ | ⟨hst, d, hcs, hdne, hdsum⟩ |
    ⟨hst, d, hrs, hdne, hpos, hndd, hndsa, hsub⟩
  · subst hst
    refine ⟨_, add_expense_of_computeSplits
      (computeSplits_equal hne custom_splits ratio_splits), rfl, ?_⟩
    rw [dictComp_eq_map hnd, sumValues_map_pair, sum_map_const]
    have hn : ((split_among.length : ℚ)) ≠ 0 := by
      have h0 : split_among.length ≠ 0 := fun h0 => hne (List.length_eq_zero.1 h0)
      exact_mod_cast h0
    rw [mul_comm, div_mul_cancel₀ amount hn]
    simp
  · subst hst
    subst hcs
    refine ⟨_, add_expense_of_computeSplits
      (computeSplits_custom amount split_among hdne ratio_splits), rfl, hdsum⟩
  · subst hst
    subst hrs
    refine ⟨_, add_expense_of_computeSplits
      (computeSplits_ratio amount split_among hdne hpos custom_splits), rfl, ?_⟩
    have hndi : (split_among.filter (fun m => m ∈ keyList d)).Nodup :=
      List.Nodup.filter _ hndsa
    rw [dictComp_eq_map hndi, sumValues_map_pair, sum_map_div_mul]
    have hps : ((split_among.filter (fun m => m ∈ keyList d)).map
        (fun m => getVal d m)).sum = ((keyList d).map (fun k => getVal d k)).sum :=
      List.Perm.sum_eq (List.Perm.map _ (filter_keys_perm hndsa hndd hsub))
    rw [hps, sum_getVal_keyList hndd, div_self (ne_of_gt hpos), one_mul]
    simp

theorem add_expense_splits_sum_invariant_amended_witness :
    ∃ e : Expense,
      add_expense ⟨[], [], ["A", "B"]⟩ "i2w" "dinner" 10 ["A"] [("A", 10)] ["A", "B"]
          "equal" none none "t" "General" =
        some ({ expenses := [] ++ [e], groups := [], members := ["A", "B"] }, "i2w") ∧
      e.amount = 10 ∧ |sumValues e.splits - 10| ≤ 1/100 :=
  add_expense_splits_sum_invariant_amended ⟨[], [], ["A", "B"]⟩ "i2w" "dinner" 10 ["A"]
    [("A", 10)] ["A", "B"] "equal" none none "t" "General"
    (Or.inl ⟨rfl, by decide, by decide⟩)

/-- C3 counterexample: a custom split summing to 999 against an expense amount
of 10 (far outside the 0.01 tolerance) is accepted: `add_expense` raises no
error and appends the expense with the inconsistent splits stored verbatim,
so the store is not left unchanged. -/
theorem add_expense_custom_mismatch_accepted :
    ¬(|sumValues [("A", (999:ℚ))] - 10| ≤ 1/100) ∧
    add_expense ⟨[], [], ["A", "B"]⟩ "i3c" "d" 10 ["A"] [("A", 10)] ["A"]
        "custom" (some [("A", 999)]) none "t" "General" =
      some (⟨[⟨"i3c", "d", 10, ["A"], [("A", 10)], ["A"], [("A", 999)], "t",
        "General"⟩], [], ["A", "B"]⟩, "i3c") := by
  constructor
  · rw [abs_le]
    norm_num [sumValues]
  · rfl

/-- C3 amended: the core `add_expense` performs no validation of custom
splits: for any truthy `custom_splits` dict it appends the expense with that
dict stored verbatim, whatever its sum; no error value exists in the core (the
balancing check lives only in the UI layer that gates the submit button). -/
theorem add_expense_custom_stores_verbatim (sp : ExpenseSplitter)
    (expense_id description : String) (amount : ℚ) (paid_by : List String)
    (paid_amounts : Dict ℚ) (split_among : List String) (d : Dict ℚ)
    (ratio_splits : Option (Dict ℚ)) (date group : String) (hd : d ≠ []) :
    add_expense sp expense_id description amount paid_by paid_amounts split_among
        "custom" (some d) ratio_splits date group =
      some ({ sp with expenses := sp.expenses ++
        [{ id := expense_id, description := description, amount := amount,
           paid_by := paid_by, paid_amounts := paid_amounts,
           split_among := split_among, splits := d, date := date,
           group := group }] }, expense_id) :=
  add_expense_of_computeSplits (computeSplits_custom amount split_among hd ratio_splits)

theorem add_expense_custom_stores_verbatim_witness :
    add_expense ⟨[], [], ["A"]⟩ "i3w" "d" 10 ["A"] [("A", 10)] ["A"]
        "custom" (some [("A", 999)]) none "t" "G" =
      some ({ expenses := [] ++ [⟨"i3w", "d", 10, ["A"], [("A", 10)], ["A"],
        [("A", 999)], "t", "G"⟩], groups := [], members := ["A"] }, "i3w") :=
  add_expense_custom_stores_verbatim ⟨[], [], ["A"]⟩ "i3w" "d" 10 ["A"] [("A", 10)]
    ["A"] [("A", 999)] none "t" "G" (by decide)

def cex5exp : Expense :=
  { id := "1", description := "d", amount := 1, paid_by := ["A"],
    paid_amounts := [("A", 101/100)], split_among := ["B"],
    splits := [("B", 99/100)], date := "t", group := "General" }

def cex5 : ExpenseSplitter :=
  { expenses := [cex5exp], groups := [], members := ["A", "B"] }

/-- C5 counterexample: one expense whose paid amounts (1.01) and splits (0.99)
are each within 0.01 of the amount (1.00), yet the balances sum to 0.02,
outside the claimed 0.01 tolerance — the per-expense tolerances add up. -/
theorem balances_sum_epsilon_counterexample :
    cex5.members.Nodup ∧
    (∀ e ∈ cex5.expenses,
      (∀ k ∈ keyList e.paid_amounts, k ∈ cex5.members) ∧
      (∀ k ∈ keyList e.splits, k ∈ cex5.members) ∧
      |sumValues e.paid_amounts - e.amount| ≤ 1/100 ∧
      |sumValues e.splits - e.amount| ≤ 1/100) ∧
    ¬(|sumValues (calculate_balances cex5 none)| ≤ 1/100) := by
  refine ⟨by decide, ?_, ?_⟩
  · intro e he
    simp only [cex5, List.mem_singleton] at he
    subst he
    refine ⟨by decide, by decide, ?_, ?_⟩
    · rw [abs_le]
      norm_num [cex5exp, sumValues]
    · rw [abs_le]
      norm_num [cex5exp, sumValues]
  · rw [abs_le]
    norm_num [cex5, cex5exp, calculate_balances, inScope, processExpense, addVal, sumValues,
      show ("A":String) ≠ "B" by simp, show ("B":String) ≠ "A" by simp]

/-- C5 amended: for a duplicate-free registry and expenses that reference only
registry members, with per-expense paid and split sums each within 0.01 of the
amount, the balance total is within `2 * 0.01 * E` of zero, where `E` is the
number of in-scope expenses (the per-expense tolerances accumulate; the sum is
exactly 0 when the per-expense sums are exact). -/
theorem calculate_balances_sum_bound (sp : ExpenseSplitter) (f : Option String)
    (hnd : sp.members.Nodup)
    (h : ∀ e ∈ sp.expenses,
      (∀ k ∈ keyList e.paid_amounts, k ∈ sp.members) ∧
      (∀ k ∈ keyList e.splits, k ∈ sp.members) ∧
      |sumValues e.paid_amounts - e.amount| ≤ 1/100 ∧
      |sumValues e.splits - e.amount| ≤ 1/100) :
    |sumValues (calculate_balances sp f)| ≤ 2/100 * (inScope sp.expenses f).length := by
  rw [calculate_balances_eq_map f hnd, sumValues_map_pair]
  have hswap : (sp.members.map (fun m => netOf sp f m)).sum =
      ((inScope sp.expenses f).map
        (fun e => (sp.members.map (fun m => netContribution e m)).sum)).sum := by
    have h0 : ∀ m ∈ sp.members, netOf sp f m =
        (fun m => ((inScope sp.expenses f).map (fun e => netContribution e m)).sum) m :=
      fun m _ => rfl
    rw [List.map_congr_left h0]
    exact sum_swap sp.members (inScope sp.expenses f) (fun m e => netContribution e m)
  rw [hswap]
  apply abs_sum_le_of_all
  intro e he
  have he2 := h e (inScope_subset e he)
  have hval : (sp.members.map (fun m => netContribution e m)).sum =
      sumValues e.paid_amounts - sumValues e.splits := by
    have hc : ∀ m ∈ sp.members, netContribution e m =
        (fun m => entrySum e.paid_amounts m - entrySum e.splits m) m := fun m _ => rfl
    rw [List.map_congr_left hc, sum_map_sub_distrib,
      sum_entrySum_eq_sumValues hnd _ he2.1, sum_entrySum_eq_sumValues hnd _ he2.2.1]
  rw [hval]
  have h1 := he2.2.2.1
  have h2 := he2.2.2.2
  rw [abs_le] at h1 h2 ⊢
  exact ⟨by linarith [h1.1, h2.2], by linarith [h1.2, h2.1]⟩

def w5exp : Expense :=
  { id := "1", description := "d", amount := 10, paid_by := ["A"],
    paid_amounts := [("A", 10)], split_among := ["B"],
    splits := [("B", 10)], date := "t", group := "General" }

def w5 : ExpenseSplitter :=
  { expenses := [w5exp], groups := [], members := ["A", "B"] }

theorem calculate_balances_sum_bound_witness :
    |sumValues (calculate_balances w5 none)| ≤ 2/100 * (inScope w5.expenses none).length :=
  calculate_balances_sum_bound w5 none (by decide) (by
    intro e he
    simp only [w5, List.mem_singleton] at he
    subst he
    refine ⟨by decide, by decide, ?_, ?_⟩ <;>
    · rw [abs_le]
      norm_num [w5exp, sumValues])

/-- C7 counterexample: with the duplicated participant list `["A", "A", "B"]`
and amount 3, each participant is indeed assigned `amount / 3 = 1`, but the
dict comprehension collapses the duplicate, so the stored splits sum to 2,
not to the amount 3. -/
theorem equal_split_duplicates_counterexample :
    add_expense ⟨[], [], ["A", "B"]⟩ "i7c" "d" 3 ["A"] [("A", 3)] ["A", "A", "B"]
        "equal" none none "t" "General" =
      some (⟨[⟨"i7c", "d", 3, ["A"], [("A", 3)], ["A", "A", "B"],
        [("A", 1), ("B", 1)], "t", "General"⟩], [], ["A", "B"]⟩, "i7c") ∧
    ¬(|sumValues [("A", (1:ℚ)), ("B", 1)] - 3| ≤ 1/100) := by
  constructor
  · rw [add_expense_of_computeSplits (computeSplits_equal (by decide) none none)]
    norm_num [dictComp, setVal, show ("A":String) ≠ "B" by simp]
  · rw [abs_le]
    norm_num [sumValues]

/-- C7 amended: for split type "equal" with a positive amount and a non-empty,
duplicate-free participant list, every participant's stored share is exactly
`amount / len(split_among)` and the shares sum exactly to the amount (with
duplicated participant names the dict collapses them and the sum falls
short). -/
theorem add_expense_equal_split_spec (sp : ExpenseSplitter)
    (expense_id description : String) (amount : ℚ) (paid_by : List String)
    (paid_amounts : Dict ℚ) (split_among : List String)
    (custom_splits ratio_splits : Option (Dict ℚ)) (date group : String)
    (hpos : 0 < amount) (hne : split_among ≠ []) (hnd : split_among.Nodup) :
    ∃ e : Expense,
      add_expense sp expense_id description amount paid_by paid_amounts split_among
          "equal" custom_splits ratio_splits date group =
        some ({ sp with expenses := sp.expenses ++ [e] }, expense_id) ∧
      (∀ m ∈ split_among, getVal e.splits m = amount / (split_among.length : ℚ)) ∧
      sumValues e.splits = amount := by
  refine ⟨_, add_expense_of_computeSplits
    (computeSplits_equal hne custom_splits ratio_splits), ?_, ?_⟩
  · intro m hm
    show getVal (dictComp split_among (fun _ => amount / (split_among.length : ℚ))) m = _
    rw [dictComp_eq_map hnd, getVal_map_self, if_pos hm]
  · show sumValues (dictComp split_among (fun _ => amount / (split_among.length : ℚ))) = _
    rw [dictComp_eq_map hnd, sumValues_map_pair, sum_map_const]
    have hn : ((split_among.length : ℚ)) ≠ 0 := by
      have h0 : split_among.length ≠ 0 := fun h0 => hne (List.length_eq_zero.1 h0)
      exact_mod_cast h0
    rw [mul_comm, div_mul_cancel₀ amount hn]

theorem add_expense_equal_split_spec_witness :
    ∃ e : Expense,
      add_expense ⟨[], [], ["A", "B"]⟩ "i7w" "d" 10 ["A"] [("A", 10)] ["A", "B"]
          "equal" none none "t" "General" =
        some ({ expenses := [] ++ [e], groups := [], members := ["A", "B"] }, "i7w") ∧
      (∀ m ∈ ["A", "B"], getVal e.splits m = 10 / ((["A", "B"] : List String).length : ℚ)) ∧
      sumValues e.splits = 10 :=
  add_expense_equal_split_spec ⟨[], [], ["A", "B"]⟩ "i7w" "d" 10 ["A"] [("A", 10)]
    ["A", "B"] none none "t" "General" (by norm_num) (by decide) (by decide)

end ExpenseSplit
